import Mathlib

/-!
Verification development for the `audio_graph` Rust library.

The definitions below are a shallow embedding of the repository's source:

* `GNode`, `AG` — the structural graph model (`src/node/mod.rs` `Node`,
  `src/graph.rs` `Audiograph` / `Watcher`): nodes carry a name and a list of
  inputs (the Rust `parents: HashMap<&str, handle>` is modelled as an
  association list with replace-on-insert, keys unique per node by
  construction).  The registry `nodes: HashMap<&str, handle>` is modelled as
  an association list from names to the node payload.  The sampling rate
  field (an `f32` never read by the structural operations) is not modelled.
* `NState`, `streamInto` — the single-node block evaluator
  (`Node::stream_into` phase 2, `src/node/mod.rs` lines 176-198) together
  with the event machinery of `src/event.rs`.  The processor (`F : Process`)
  is modelled as a state type `P` with a step function
  `P → List S → P × S`; the gathered parent blocks are the `data` argument.
* `INode` — the per-sample iterator path (`impl Iterator for Node`).
* `TReg` — the registry view used by `Audiograph::register_event`, where a
  node's concrete processor type is modelled by a `Nat` type tag and the
  `downcast_mut` test is tag equality.
-/

namespace AudioGraph

/-- A node of the audio graph, as built by `Node::new` / `Node::add_input`:
a static name and its `parents` map (here: list of input nodes, with
unique names maintained by replace-on-insert). Processors, buffers and
event queues are irrelevant to the structural claims and are modelled
separately. -/
inductive GNode where
  | mk (name : String) (inputs : List GNode)

namespace GNode

def name : GNode → String
  | .mk n _ => n

def inputs : GNode → List GNode
  | .mk _ l => l

end GNode

/-- `HashMap::insert` on a node's `parents` map: replace the entry with the
same name if present, otherwise add the new entry. -/
def insertInput (x : GNode) : List GNode → List GNode
  | [] => [x]
  | c :: cs => if c.name = x.name then x :: cs else c :: insertInput x cs

/-- `Node::add_input` (src/node/mod.rs lines 50-56): insert the input into
the node's `parents` map. -/
def GNode.addInput (n : GNode) (input : GNode) : GNode :=
  .mk n.name (insertInput input n.inputs)

mutual
/-- Names of all nodes reachable from `t` (itself included). -/
def GNode.reachNames : GNode → List String
  | .mk n l => n :: reachNamesList l

def reachNamesList : List GNode → List String
  | [] => []
  | c :: cs => c.reachNames ++ reachNamesList cs
end

/-- Names of the nodes strictly reachable from `t` (the proper descendants
through the `inputs` relation). -/
def GNode.strictDescNames (t : GNode) : List String :=
  reachNamesList t.inputs

mutual
/-- All nodes reachable from `t`, itself included. -/
def GNode.subnodes : GNode → List GNode
  | .mk n l => .mk n l :: subnodesList l

def subnodesList : List GNode → List GNode
  | [] => []
  | c :: cs => c.subnodes ++ subnodesList cs
end

/-- The graph registry: `Nodes<S, N> = HashMap<&str, Arc<Mutex<dyn NodeTrait>>>`,
modelled as an association list from names to node payloads. -/
abbrev Reg := List (String × GNode)

/-- `HashMap::insert` on the registry. -/
def regInsert (k : String) (v : GNode) : Reg → Reg
  | [] => [(k, v)]
  | e :: es => if e.1 = k then (k, v) :: es else e :: regInsert k v es

/-- `HashMap::get` on the registry. -/
def regFind (k : String) : Reg → Option GNode
  | [] => none
  | e :: es => if e.1 = k then some e.2 else regFind k es

/-- The registry's key set. -/
def regKeys (r : Reg) : List String := r.map Prod.fst

mutual
/-- `Node::collect_nodes` (src/node/mod.rs lines 267-273): for each entry of
the `parents` map, insert it into the accumulator and recurse into it.
The node itself is *not* inserted. -/
def GNode.collectNodes : GNode → Reg → Reg
  | .mk _ l, acc => collectNodesList l acc

def collectNodesList : List GNode → Reg → Reg
  | [], acc => acc
  | c :: cs, acc => collectNodesList cs (c.collectNodes (regInsert c.name c acc))
end

/-- `Watcher::on` (src/graph.rs lines 234-243): a fresh Sentinel node named
`"root"` with the wrapped node as its sole input. -/
def watcherOn (t : GNode) : GNode :=
  (GNode.mk "root" []).addInput t

/-- The audio graph (`Audiograph`): the sentinel root and the registry.
The `sample_rate: f32` field is not used by any structural operation and is
not modelled. -/
structure AG where
  root : GNode
  reg : Reg

/-- `Audiograph::new` (src/graph.rs lines 41-52): collect the nodes
reachable from the root into a fresh registry. -/
def AG.new (root : GNode) : AG :=
  { root := root, reg := root.collectNodes [] }

/-- `Audiograph::set_root` (src/graph.rs lines 59-65). -/
def AG.setRoot (_g : AG) (root : GNode) : AG :=
  { root := root, reg := root.collectNodes [] }

mutual
/-- The tree-side effect of `Audiograph::add_input_to`: the registry handle
for `target` aliases the tree node of that name, so inserting through the
handle inserts into that node's `parents` map.  The model inserts into
every node named `target`; under the name-uniqueness invariant of the graph
there is at most one such node, as in the source. -/
def GNode.addInputTree (target : String) (input : GNode) : GNode → GNode
  | .mk n l =>
    let l' := addInputTreeList target input l
    if n = target then .mk n (insertInput input l') else .mk n l'
termination_by t => sizeOf t

def addInputTreeList (target : String) (input : GNode) : List GNode → List GNode
  | [] => []
  | c :: cs => GNode.addInputTree target input c :: addInputTreeList target input cs
termination_by l => sizeOf l
end

/-- `Audiograph::add_input_to` (src/graph.rs lines 72-97): look the parent
name up in the registry; if absent return `false` and change nothing; if
present insert the input into the parent's `parents` map (through the
registry handle) and insert it into the registry under its own name. -/
def AG.addInputTo (g : AG) (name : String) (input : GNode) : AG × Bool :=
  match regFind name g.reg with
  | some _ =>
    ({ root := GNode.addInputTree name input g.root,
       reg := regInsert input.name input g.reg }, true)
  | none => (g, false)

mutual
/-- `Node::delete_parents_hierarchy` (src/node/mod.rs lines 304-318):
empty the `parents` map, returning the names of all strict descendants
(the `nodes_to_remove` insertions). -/
def GNode.delParents : GNode → List String
  | .mk _ l => delParentsList l

def delParentsList : List GNode → List String
  | [] => []
  | c :: cs => (c.delParents ++ [c.name]) ++ delParentsList cs
end

mutual
/-- `Node::delete_node` (src/node/mod.rs lines 275-302): if the target is
among this node's `parents`, tag its whole input hierarchy and the target
itself for removal and unlink it; otherwise recurse into the parents,
stopping at the first success.  Returns the updated node, the success flag
and the accumulated `nodes_to_remove` insertions. -/
def GNode.delNode (target : String) : GNode → GNode × Bool × List String
  | .mk n l =>
    match l.find? (fun c => c.name = target) with
    | some found =>
      (.mk n (l.eraseP (fun c => c.name = target)), true,
        found.delParents ++ [target])
    | none =>
      let r := delNodeList target l
      (.mk n r.1, r.2.1, r.2.2)

def delNodeList (target : String) : List GNode → List GNode × Bool × List String
  | [] => ([], false, [])
  | c :: cs =>
    let r := c.delNode target
    if r.2.1 then (r.1 :: cs, true, r.2.2)
    else
      let rs := delNodeList target cs
      (r.1 :: rs.1, rs.2.1, r.2.2 ++ rs.2.2)
end

/-- `Audiograph::delete_node` (src/graph.rs lines 157-165): delete through
the root, then retain only the registry entries whose name was not tagged
for removal. -/
def AG.deleteNode (g : AG) (name : String) : AG × Bool :=
  let r := g.root.delNode name
  ({ root := r.1, reg := g.reg.filter (fun e => !r.2.2.contains e.1) }, r.2.1)

/-- The graph-construction operations of claim C1: `set_root` with a new
watcher, and `add_input_to`. -/
inductive AGOp where
  | setRoot (t : GNode)
  | addInputTo (parent : String) (input : GNode)

def AG.applyOp (g : AG) : AGOp → AG
  | .setRoot t => g.setRoot (watcherOn t)
  | .addInputTo p i => (g.addInputTo p i).1

def AG.applyOps (g : AG) : List AGOp → AG
  | [] => g
  | op :: ops => (g.applyOp op).applyOps ops

/-! ## The single-node block evaluator and the event machinery

`Node<S, F, N>` is generic over the processor type `F : Process<S>`.  Here
the processor is a state of type `P` together with a step function
`step : P → List S → P × S` (`Process::process_next_value`, which may
mutate the processor's internal state).  The gathered parent blocks of
phase 1 of `stream_into` are passed as `data : List (Nat → S)` (one block
per parent, indexed by sample position). -/

/-- The payload of an `Event` (src/event.rs lines 7-30), minus the target
sample index.  `UpdateParams` carries the processor mutator; `AddInput`
carries the name under which the new input handle is inserted (the handle
itself does not influence the pass being streamed). -/
inductive Act (P : Type) where
  | updateParams (fu : P → P)
  | noteOn
  | noteOff
  | addInput (name : String)

/-- An `Event<S, F, N>`: a target sample index and an action. -/
structure Ev (P : Type) where
  sample : Nat
  act : Act P

/-- The mutable state of a `Node` during a pass: processor state `f`, the
`on` gate (the source field `on`, renamed because `on` is notation in
Mathlib), the `parents` keys and the event queue. -/
structure NState (P : Type) where
  fstate : P
  onFlag : Bool
  parents : List String
  events : List (Ev P)

/-- Insert a parent name, replacing a duplicate (`HashMap::insert` on
`parents`, keys only). -/
def insertName (k : String) : List String → List String
  | [] => [k]
  | n :: ns => if n = k then k :: ns else n :: insertName k ns

/-- `Event::play_on` (src/event.rs lines 82-91). -/
def playOn {P : Type} (e : Ev P) (st : NState P) : NState P :=
  match e.act with
  | .updateParams fu => { st with fstate := fu st.fstate }
  | .noteOn => { st with onFlag := true }
  | .noteOff => { st with onFlag := false }
  | .addInput name => { st with parents := insertName name st.parents }

/-- Stable insertion into a list sorted by decreasing sample index: the new
event goes after every queued event whose index is `≥` its own. -/
def insEvDesc {P : Type} (e : Ev P) : List (Ev P) → List (Ev P)
  | [] => [e]
  | a :: as => if e.sample < a.sample then a :: insEvDesc e as else e :: a :: as

/-- Stable sort by decreasing sample index.  `Vec::sort` with the reversed
`Ord` of src/event.rs lines 133-141 is a stable sort by decreasing sample
index; insertion sort inserting each element before its ties realises the
same (unique) stable result. -/
def sortEvDesc {P : Type} : List (Ev P) → List (Ev P)
  | [] => []
  | a :: as => insEvDesc a (sortEvDesc as)

/-- `Node::register_event` (src/node/mod.rs lines 64-69): push the event,
then stable-sort by decreasing sample index. -/
def registerEvent {P : Type} (evs : List (Ev P)) (e : Ev P) : List (Ev P) :=
  sortEvDesc (evs ++ [e])

/-- The event queue obtained by registering the events of `l` in order on a
fresh node (whose queue starts empty, per `Node::new`). -/
def registerAll {P : Type} (l : List (Ev P)) : List (Ev P) :=
  l.foldl registerEvent []

/-- Whether an action is `NoteOn` (the only action that sets the gate). -/
def Act.isNoteOn {P : Type} : Act P → Bool
  | .noteOn => true
  | _ => false

/-- The event-draining loop of `Node::stream_into` (src/node/mod.rs lines
182-188): pop events from the end of the queue while the last one's sample
index is `≤ idx`, applying each popped event to the node.  The loop pops
exactly the maximal due suffix, in end-first order. -/
def drainDue {P : Type} (idx : Nat) (st : NState P) : NState P :=
  let fired := st.events.reverse.takeWhile (fun e => e.sample ≤ idx)
  let rest := (st.events.reverse.dropWhile (fun e => e.sample ≤ idx)).reverse
  fired.foldl (fun acc e => playOn e acc) { st with events := rest }

/-- One iteration of the sample loop of `Node::stream_into` (src/node/mod.rs
lines 177-197): drain the due events, then write
`processor.process_next_value(input)` if `on`, else the zero sample. -/
def passStep {S P : Type} (step : P → List S → P × S) (zero : S)
    (input : List S) (idx : Nat) (st : NState P) : NState P × S :=
  let st1 := drainDue idx st
  if st1.onFlag then
    let pr := step st1.fstate input
    ({ st1 with fstate := pr.1 }, pr.2)
  else (st1, zero)

/-- The sample loop over the index sequence `idxs` (in `stream_into`,
`0..N`).  The input vector at index `idx` reads every gathered parent block
at position `idx`. -/
def runPass {S P : Type} (step : P → List S → P × S) (zero : S)
    (data : List (Nat → S)) : List Nat → NState P → NState P × List S
  | [], st => (st, [])
  | idx :: rest, st =>
    let r := passStep step zero (data.map (fun b => b idx)) idx st
    let rr := runPass step zero data rest r.1
    (rr.1, r.2 :: rr.2)

/-- Phase 2 of `Node::stream_into`: one pass of exactly `N` samples. -/
def streamInto {S P : Type} (step : P → List S → P × S) (zero : S)
    (data : List (Nat → S)) (N : Nat) (st : NState P) : NState P × List S :=
  runPass step zero data (List.range N) st

/-- The node state held by the loop when it reaches sample index `i`
(`stAt 0` is the state at entry of the pass). -/
def stAt {S P : Type} (step : P → List S → P × S) (zero : S)
    (data : List (Nat → S)) (st : NState P) : Nat → NState P
  | 0 => st
  | i + 1 => (passStep step zero (data.map (fun b => b i)) i
      (stAt step zero data st i)).1

/-! ## The per-sample iterator path (`impl Iterator for Node`)

A node tree in which every node carries its full state: the `on` gate, the
processor state and step function, the event queue and the input nodes.
Every input of a `Node` is itself a `Node` behind a `dyn NodeTrait` handle,
so the tree is homogeneous in the sample type `S` and (in this model) in
the processor-state type `P`. -/

inductive INode (S P : Type) where
  | mk (onFlag : Bool) (fstate : P) (step : P → List S → P × S)
       (events : List (Ev P)) (inputs : List (INode S P))

namespace INode

def onFlag {S P : Type} : INode S P → Bool
  | .mk b _ _ _ _ => b

def fstate {S P : Type} : INode S P → P
  | .mk _ f _ _ _ => f

def step {S P : Type} : INode S P → P → List S → P × S
  | .mk _ _ s _ _ => s

def events {S P : Type} : INode S P → List (Ev P)
  | .mk _ _ _ e _ => e

def inputs {S P : Type} : INode S P → List (INode S P)
  | .mk _ _ _ _ l => l

end INode

mutual
/-- `Iterator::next` for `Node` (src/node/mod.rs lines 344-356): pull one
value from each input's iterator, collecting into an `Option` of the value
vector (short-circuiting at the first input that yields `None`); if all
inputs yielded values, feed them to `process_next_value` once and return
its result. -/
def INode.next {S P : Type} : INode S P → INode S P × Option S
  | .mk b f s e l =>
    match nextList l with
    | (l', some vals) =>
      (.mk b (s f vals).1 s e l', some (s f vals).2)
    | (l', none) => (.mk b f s e l', none)
termination_by t => sizeOf t

/-- `collect::<Option<Vec<_>>>` over the inputs' iterators: advance each
input in turn, stopping at the first `None`. -/
def nextList {S P : Type} : List (INode S P) → List (INode S P) × Option (List S)
  | [] => ([], some [])
  | i :: is =>
    match INode.next i with
    | (i', some v) =>
      match nextList is with
      | (is', some vs) => (i' :: is', some (v :: vs))
      | (is', none) => (i' :: is', none)
    | (i', none) => (i' :: is, none)
termination_by l => sizeOf l
end

mutual
/-- All event queues in the tree (the node's own and, recursively, those of
its inputs). -/
def INode.allEvents {S P : Type} : INode S P → List (List (Ev P))
  | .mk _ _ _ e l => e :: allEventsList l

def allEventsList {S P : Type} : List (INode S P) → List (List (Ev P))
  | [] => []
  | i :: is => i.allEvents ++ allEventsList is
end

mutual
/-- Set every `on` gate in the tree to `b` (used to state that the iterator
path ignores the gate). -/
def INode.setAllOn {S P : Type} (b : Bool) : INode S P → INode S P
  | .mk _ f s e l => .mk b f s e (setAllOnList b l)
termination_by t => sizeOf t

def setAllOnList {S P : Type} (b : Bool) : List (INode S P) → List (INode S P)
  | [] => []
  | i :: is => i.setAllOn b :: setAllOnList b is
termination_by l => sizeOf l
end

/-! ## `Audiograph::register_event` (src/graph.rs lines 128-146)

`register_event::<F>` looks the name up in the registry and then attempts
`downcast_mut::<Node<S, F, N>>` on the handle; the downcast succeeds
exactly when the node's concrete processor type is `F`.  The concrete type
is modelled by a `Nat` tag; the downcast test is tag equality. -/

/-- A registry entry for event registration: the node's concrete processor
type tag and its node state. -/
structure TNode (P : Type) where
  tag : Nat
  st : NState P

/-- The registry, keyed by node name. -/
abbrev TReg (P : Type) := List (String × TNode P)

def tregFind {P : Type} (k : String) : TReg P → Option (TNode P)
  | [] => none
  | e :: es => if e.1 = k then some e.2 else tregFind k es

/-- Update the entry under key `k` (the mutation through the locked
handle). -/
def tregUpdate {P : Type} (k : String) (v : TNode P) : TReg P → TReg P
  | [] => []
  | e :: es => if e.1 = k then (k, v) :: es else e :: tregUpdate k v es

/-- `Audiograph::register_event`: locate the name, downcast, and on success
push the event through `Node::register_event`. -/
def registerEventG {P : Type} (r : TReg P) (name : String) (expTag : Nat)
    (e : Ev P) : TReg P × Bool :=
  match tregFind name r with
  | some n =>
    if n.tag = expTag then
      (tregUpdate name
        { n with st := { n.st with events := registerEvent n.st.events e } } r,
       true)
    else (r, false)
  | none => (r, false)

/-! ## Induction principles for the nested tree type -/

mutual
def gInd {P : GNode → Prop} {Q : List GNode → Prop}
    (h1 : ∀ n l, Q l → P (.mk n l)) (h2 : Q [])
    (h3 : ∀ c cs, P c → Q cs → Q (c :: cs)) : (t : GNode) → P t
  | .mk n l => h1 n l (gIndList h1 h2 h3 l)
termination_by t => sizeOf t

def gIndList {P : GNode → Prop} {Q : List GNode → Prop}
    (h1 : ∀ n l, Q l → P (.mk n l)) (h2 : Q [])
    (h3 : ∀ c cs, P c → Q cs → Q (c :: cs)) : (l : List GNode) → Q l
  | [] => h2
  | c :: cs => h3 c cs (gInd h1 h2 h3 c) (gIndList h1 h2 h3 cs)
termination_by l => sizeOf l
end

mutual
def iInd {S P : Type} {A : INode S P → Prop} {B : List (INode S P) → Prop}
    (h1 : ∀ b f s e l, B l → A (.mk b f s e l)) (h2 : B [])
    (h3 : ∀ i is, A i → B is → B (i :: is)) : (n : INode S P) → A n
  | .mk b f s e l => h1 b f s e l (iIndList h1 h2 h3 l)
termination_by n => sizeOf n

def iIndList {S P : Type} {A : INode S P → Prop} {B : List (INode S P) → Prop}
    (h1 : ∀ b f s e l, B l → A (.mk b f s e l)) (h2 : B [])
    (h3 : ∀ i is, A i → B is → B (i :: is)) : (l : List (INode S P)) → B l
  | [] => h2
  | i :: is => h3 i is (iInd h1 h2 h3 i) (iIndList h1 h2 h3 is)
termination_by l => sizeOf l
end

mutual
/-- Names reachable from `t` by paths that never enter a node named
`avoid` (used to state "solely reachable through `name`" in claim C2). -/
def GNode.reachAvoid (avoid : String) : GNode → List String
  | .mk n l => if n = avoid then [] else n :: reachAvoidList avoid l

def reachAvoidList (avoid : String) : List GNode → List String
  | [] => []
  | c :: cs => c.reachAvoid avoid ++ reachAvoidList avoid cs
end

/-- The registry invariant of claim C1: the registry's key set is exactly
the set of names strictly reachable from the Sentinel. -/
def RegInv (g : AG) : Prop :=
  ∀ s, s ∈ regKeys g.reg ↔ s ∈ g.root.strictDescNames

/-- The side conditions under which the claim-C1 sequence is run: every
node handed to `add_input_to` has no inputs of its own and a name not yet
in the graph (the name-uniqueness invariant of the data model). -/
def OpsOK : AG → List AGOp → Prop
  | _, [] => True
  | g, op :: ops =>
    (match op with
     | .setRoot _ => True
     | .addInputTo _ i => i.inputs = [] ∧ i.name ∉ g.root.reachNames) ∧
    OpsOK (g.applyOp op) ops

/-! ## Basic facts about names and the registry -/

@[simp] theorem GNode.name_mk (n : String) (l : List GNode) :
    (GNode.mk n l).name = n := rfl

@[simp] theorem GNode.inputs_mk (n : String) (l : List GNode) :
    (GNode.mk n l).inputs = l := rfl

theorem reachNamesList_append (a b : List GNode) :
    reachNamesList (a ++ b) = reachNamesList a ++ reachNamesList b := by
  induction a with
  | nil => simp [reachNamesList]
  | cons c cs ih => simp [reachNamesList, ih]

theorem mem_reachNamesList {s : String} {l : List GNode} :
    s ∈ reachNamesList l ↔ ∃ c ∈ l, s ∈ c.reachNames := by
  induction l with
  | nil => simp [reachNamesList]
  | cons c cs ih =>
    simp only [reachNamesList, List.mem_append, ih, List.mem_cons]
    constructor
    · rintro (h | ⟨c', hc', hs⟩)
      · exact ⟨c, Or.inl rfl, h⟩
      · exact ⟨c', Or.inr hc', hs⟩
    · rintro ⟨c', (rfl | hc'), hs⟩
      · exact Or.inl hs
      · exact Or.inr ⟨c', hc', hs⟩

theorem name_mem_reachNames (t : GNode) : t.name ∈ t.reachNames := by
  cases t with
  | mk n l => simp [GNode.reachNames]

theorem reachNames_eq (t : GNode) :
    t.reachNames = t.name :: t.strictDescNames := by
  cases t with
  | mk n l => simp [GNode.reachNames, GNode.strictDescNames]

theorem strictDescNames_subset_reachNames {s : String} {t : GNode}
    (h : s ∈ t.strictDescNames) : s ∈ t.reachNames := by
  rw [reachNames_eq]; exact List.mem_cons_of_mem _ h

theorem mem_regKeys_regInsert {s k : String} {v : GNode} {r : Reg} :
    s ∈ regKeys (regInsert k v r) ↔ s = k ∨ s ∈ regKeys r := by
  induction r with
  | nil => simp [regInsert, regKeys]
  | cons e es ih =>
    by_cases h : e.1 = k
    · subst h
      simp [regInsert, regKeys]
    · simp only [regInsert, if_neg h, regKeys, List.map_cons, List.mem_cons]
      rw [show regKeys (regInsert k v es) = (regInsert k v es).map Prod.fst from rfl] at ih
      rw [show regKeys es = es.map Prod.fst from rfl] at ih
      tauto

/-- `collect_nodes` accumulates exactly the names of the strict descendants
(and keeps what was in the accumulator). -/
theorem mem_regKeys_collectNodesList {l : List GNode} :
    ∀ (acc : Reg) (s : String),
      s ∈ regKeys (collectNodesList l acc) ↔
        s ∈ reachNamesList l ∨ s ∈ regKeys acc := by
  refine gIndList (P := fun t => ∀ (acc : Reg) (s : String),
      s ∈ regKeys (t.collectNodes acc) ↔ s ∈ t.strictDescNames ∨ s ∈ regKeys acc)
    (Q := fun l => ∀ (acc : Reg) (s : String),
      s ∈ regKeys (collectNodesList l acc) ↔ s ∈ reachNamesList l ∨ s ∈ regKeys acc)
    ?_ ?_ ?_ l
  · intro n l ih acc s
    simp only [GNode.collectNodes, GNode.strictDescNames]
    exact ih acc s
  · intro acc s
    simp [collectNodesList, reachNamesList]
  · intro c cs ihc ihcs acc s
    simp only [collectNodesList, reachNamesList, List.mem_append]
    rw [ihcs, ihc, mem_regKeys_regInsert, reachNames_eq]
    simp only [List.mem_cons]
    tauto

theorem mem_regKeys_collectNodes {t : GNode} (acc : Reg) (s : String) :
    s ∈ regKeys (t.collectNodes acc) ↔ s ∈ t.strictDescNames ∨ s ∈ regKeys acc := by
  cases t with
  | mk n l =>
    simp only [GNode.collectNodes, GNode.strictDescNames]
    exact mem_regKeys_collectNodesList acc s

/-! ## The registry invariant under `add_input_to` (claim C1) -/

theorem insertInput_of_fresh {x : GNode} {l : List GNode}
    (h : ∀ c ∈ l, c.name ≠ x.name) : insertInput x l = l ++ [x] := by
  induction l with
  | nil => simp [insertInput]
  | cons c cs ih =>
    rw [insertInput, if_neg (h c (List.mem_cons_self c cs)), List.cons_append,
      ih (fun c' hc' => h c' (List.mem_cons_of_mem c hc'))]

theorem addInputTreeList_map_name (target : String) (input : GNode)
    (l : List GNode) :
    (addInputTreeList target input l).map GNode.name = l.map GNode.name := by
  induction l with
  | nil => simp [addInputTreeList]
  | cons c cs ih =>
    rw [addInputTreeList, List.map_cons, List.map_cons, ih]
    cases c with
    | mk n cl =>
      by_cases h : n = target <;> simp [GNode.addInputTree, h]

theorem name_mem_of_mem_map_name {s : String} {l : List GNode}
    (h : s ∈ l.map GNode.name) : s ∈ reachNamesList l := by
  rw [mem_reachNamesList]
  obtain ⟨c, hc, rfl⟩ := List.mem_map.mp h
  exact ⟨c, hc, name_mem_reachNames c⟩

/-- With a fresh input name, `add_input_to`'s tree mutation adds exactly the
input's reachable names below every node named `target` (and nothing is
replaced away). -/
theorem mem_reachNames_addInputTree {target : String} {input : GNode}
    {t : GNode} :
    input.name ∉ t.reachNames →
    ∀ s, s ∈ (GNode.addInputTree target input t).reachNames ↔
      (s ∈ t.reachNames ∨ (target ∈ t.reachNames ∧ s ∈ input.reachNames)) := by
  refine gInd (P := fun t => input.name ∉ t.reachNames →
      ∀ s, s ∈ (GNode.addInputTree target input t).reachNames ↔
        (s ∈ t.reachNames ∨ (target ∈ t.reachNames ∧ s ∈ input.reachNames)))
    (Q := fun l => input.name ∉ reachNamesList l →
      ∀ s, s ∈ reachNamesList (addInputTreeList target input l) ↔
        (s ∈ reachNamesList l ∨ (target ∈ reachNamesList l ∧ s ∈ input.reachNames)))
    ?_ ?_ ?_ t
  · intro n l ih hfresh s
    have hfresh' : input.name ∉ reachNamesList l := by
      intro h; exact hfresh (by rw [GNode.reachNames]; exact List.mem_cons_of_mem _ h)
    have hne : n ≠ input.name := by
      intro h; exact hfresh (by rw [GNode.reachNames, h]; exact List.mem_cons_self _ _)
    by_cases hn : n = target
    · rw [GNode.addInputTree, if_pos hn]
      have hrep : insertInput input (addInputTreeList target input l) =
          addInputTreeList target input l ++ [input] := by
        refine insertInput_of_fresh ?_
        intro c hc hcn
        have : c.name ∈ (addInputTreeList target input l).map GNode.name :=
          List.mem_map.mpr ⟨c, hc, rfl⟩
        rw [addInputTreeList_map_name, hcn] at this
        exact hfresh' (name_mem_of_mem_map_name this)
      rw [hrep, GNode.reachNames, reachNamesList_append]
      simp only [List.mem_cons, List.mem_append, GNode.reachNames, reachNamesList,
        List.append_nil]
      rw [ih hfresh' s]
      subst hn
      tauto
    · rw [GNode.addInputTree, if_neg hn]
      simp only [GNode.reachNames, List.mem_cons]
      rw [ih hfresh' s]
      have : ¬ target = n := fun h => hn h.symm
      tauto
  · intro _ s
    simp [addInputTreeList, reachNamesList]
  · intro c cs ihc ihcs hfresh s
    rw [reachNamesList] at hfresh
    simp only [List.mem_append] at hfresh
    push_neg at hfresh
    rw [addInputTreeList, reachNamesList, reachNamesList]
    simp only [List.mem_append]
    rw [ihc hfresh.1 s, ihcs hfresh.2 s]
    tauto

theorem addInputTreeList_eq_map (target : String) (input : GNode)
    (l : List GNode) :
    addInputTreeList target input l = l.map (GNode.addInputTree target input) := by
  induction l with
  | nil => simp [addInputTreeList]
  | cons c cs ih => rw [addInputTreeList, ih, List.map_cons]

theorem mem_reachNamesList_addInputTreeList {target : String} {input : GNode}
    {l : List GNode} (hfresh : input.name ∉ reachNamesList l) (s : String) :
    s ∈ reachNamesList (addInputTreeList target input l) ↔
      (s ∈ reachNamesList l ∨ (target ∈ reachNamesList l ∧ s ∈ input.reachNames)) := by
  rw [addInputTreeList_eq_map, mem_reachNamesList]
  simp only [List.mem_map]
  constructor
  · rintro ⟨c', ⟨c, hc, rfl⟩, hs⟩
    have hf : input.name ∉ c.reachNames := fun h =>
      hfresh (mem_reachNamesList.mpr ⟨c, hc, h⟩)
    rcases (mem_reachNames_addInputTree hf s).mp hs with h | ⟨ht, hi⟩
    · exact Or.inl (mem_reachNamesList.mpr ⟨c, hc, h⟩)
    · exact Or.inr ⟨mem_reachNamesList.mpr ⟨c, hc, ht⟩, hi⟩
  · rintro (h | ⟨ht, hi⟩)
    · obtain ⟨c, hc, hs⟩ := mem_reachNamesList.mp h
      have hf : input.name ∉ c.reachNames := fun h' =>
        hfresh (mem_reachNamesList.mpr ⟨c, hc, h'⟩)
      exact ⟨_, ⟨c, hc, rfl⟩, (mem_reachNames_addInputTree hf s).mpr (Or.inl hs)⟩
    · obtain ⟨c, hc, ht'⟩ := mem_reachNamesList.mp ht
      have hf : input.name ∉ c.reachNames := fun h' =>
        hfresh (mem_reachNamesList.mpr ⟨c, hc, h'⟩)
      exact ⟨_, ⟨c, hc, rfl⟩,
        (mem_reachNames_addInputTree hf s).mpr (Or.inr ⟨ht', hi⟩)⟩

theorem mem_strictDescNames_addInputTree {target : String} {input : GNode}
    {t : GNode} (hfresh : input.name ∉ t.reachNames) (s : String) :
    s ∈ (GNode.addInputTree target input t).strictDescNames ↔
      (s ∈ t.strictDescNames ∨ (target ∈ t.reachNames ∧ s ∈ input.reachNames)) := by
  cases t with
  | mk n l =>
    have hfresh' : input.name ∉ reachNamesList l := by
      intro h
      exact hfresh (by rw [GNode.reachNames]; exact List.mem_cons_of_mem _ h)
    have hreach : ∀ s', s' ∈ (GNode.mk n l).reachNames ↔
        (s' = n ∨ s' ∈ reachNamesList l) := by
      intro s'; rw [GNode.reachNames, List.mem_cons]
    by_cases hn : n = target
    · rw [GNode.addInputTree, if_pos hn]
      have hrep : insertInput input (addInputTreeList target input l) =
          addInputTreeList target input l ++ [input] := by
        refine insertInput_of_fresh ?_
        intro c hc hcn
        have : c.name ∈ (addInputTreeList target input l).map GNode.name :=
          List.mem_map.mpr ⟨c, hc, rfl⟩
        rw [addInputTreeList_map_name, hcn] at this
        exact hfresh' (name_mem_of_mem_map_name this)
      rw [GNode.strictDescNames, GNode.inputs_mk, hrep, reachNamesList_append,
        List.mem_append, mem_reachNamesList_addInputTreeList hfresh' s,
        GNode.strictDescNames, GNode.inputs_mk]
      rw [hreach target]
      simp only [reachNamesList, List.append_nil]
      subst hn
      tauto
    · rw [GNode.addInputTree, if_neg hn]
      rw [GNode.strictDescNames, GNode.inputs_mk,
        mem_reachNamesList_addInputTreeList hfresh' s,
        GNode.strictDescNames, GNode.inputs_mk, hreach target]
      have : ¬ target = n := fun h => hn h.symm
      tauto

theorem mem_regKeys_of_regFind {k : String} {v : GNode} {r : Reg}
    (h : regFind k r = some v) : k ∈ regKeys r := by
  induction r with
  | nil => simp [regFind] at h
  | cons e es ih =>
    rw [regFind] at h
    by_cases he : e.1 = k
    · rw [regKeys, List.map_cons, List.mem_cons]; exact Or.inl he.symm
    · rw [if_neg he] at h
      rw [regKeys, List.map_cons, List.mem_cons]
      exact Or.inr (ih h)

theorem regInv_new (root : GNode) : RegInv (AG.new root) := by
  intro s
  rw [AG.new]
  exact (mem_regKeys_collectNodes [] s).trans (by simp [regKeys])

theorem regInv_applyOp {g : AG} (hinv : RegInv g) {op : AGOp}
    (hok : match op with
      | .setRoot _ => True
      | .addInputTo _ i => i.inputs = [] ∧ i.name ∉ g.root.reachNames) :
    RegInv (g.applyOp op) := by
  cases op with
  | setRoot t =>
    rw [AG.applyOp, AG.setRoot]
    intro s
    exact (mem_regKeys_collectNodes [] s).trans (by simp [regKeys])
  | addInputTo p i =>
    obtain ⟨hleaf, hfresh⟩ := hok
    rw [AG.applyOp, AG.addInputTo]
    cases hfind : regFind p g.reg with
    | none => exact hinv
    | some v =>
      intro s
      have hp : p ∈ g.root.reachNames :=
        strictDescNames_subset_reachNames
          ((hinv p).mp (mem_regKeys_of_regFind hfind))
      have hi : i.reachNames = [i.name] := by
        cases i with
        | mk nm l =>
          cases hleaf
          simp [GNode.reachNames, reachNamesList]
      rw [mem_regKeys_regInsert, hinv s,
        mem_strictDescNames_addInputTree hfresh s, hi]
      simp only [List.mem_singleton]
      tauto

theorem regInv_applyOps {g : AG} {ops : List AGOp} (hinv : RegInv g)
    (hok : OpsOK g ops) : RegInv (g.applyOps ops) := by
  induction ops generalizing g with
  | nil => exact hinv
  | cons op ops ih =>
    rw [AG.applyOps]
    rw [OpsOK.eq_def] at hok
    exact ih (regInv_applyOp hinv hok.1) hok.2

/-- Claim C1 (amended): for every graph built by a Watcher construction,
`Audiograph::new`, and any sequence of `set_root` and `add_input_to` (each
added node carrying no inputs of its own and a fresh name), the registry
contains exactly the set of names *strictly* reachable from the Sentinel
through the `inputs` relation.  The Sentinel itself is *not* registered:
`collect_nodes` only inserts the parents of the node it walks, so the
reserved name `"root"` never enters the registry. -/
theorem c1_registry_exactly_strict_reachable (t : GNode) (ops : List AGOp)
    (hok : OpsOK (AG.new (watcherOn t)) ops) :
    ∀ s, s ∈ regKeys ((AG.new (watcherOn t)).applyOps ops).reg ↔
      s ∈ ((AG.new (watcherOn t)).applyOps ops).root.strictDescNames :=
  regInv_applyOps (regInv_new (watcherOn t)) hok

/-- Claim C1 as frozen is false: in the graph built by `Audiograph::new`
over a Watcher on a single node `"a"`, the name `"root"` is reachable from
the Sentinel (it names the Sentinel itself) yet is absent from the
registry, because `collect_nodes` never inserts the root node itself. -/
theorem c1_counterexample :
    "root" ∈ (AG.new (watcherOn (GNode.mk "a" []))).root.reachNames ∧
    "root" ∉ regKeys (AG.new (watcherOn (GNode.mk "a" []))).reg := by
  constructor
  · exact List.mem_cons_self _ _
  · decide

/-- Witness for `c1_registry_exactly_strict_reachable` at a concrete graph:
Watcher over `"a"`, then `add_input_to("a", "b")`. -/
theorem c1_witness :
    "b" ∈ regKeys ((AG.new (watcherOn (GNode.mk "a" []))).applyOps
        [AGOp.addInputTo "a" (GNode.mk "b" [])]).reg ↔
      "b" ∈ ((AG.new (watcherOn (GNode.mk "a" []))).applyOps
        [AGOp.addInputTo "a" (GNode.mk "b" [])]).root.strictDescNames :=
  c1_registry_exactly_strict_reachable (GNode.mk "a" [])
    [AGOp.addInputTo "a" (GNode.mk "b" [])]
    (by constructor
        · exact ⟨rfl, by decide⟩
        · exact trivial)
    "b"

/-! ## Deletion (claim C2) -/

theorem delNode_of_flag_false {target : String} :
    ∀ l : List GNode, (delNodeList target l).2.1 = false →
      (delNodeList target l).1 = l ∧ (delNodeList target l).2.2 = [] := by
  have main : ∀ l : List GNode, (delNodeList target l).2.1 = false →
      (delNodeList target l).1 = l ∧ (delNodeList target l).2.2 = [] := by
    refine gIndList
      (P := fun t => (GNode.delNode target t).2.1 = false →
        (GNode.delNode target t).1 = t ∧ (GNode.delNode target t).2.2 = [])
      (Q := fun l => (delNodeList target l).2.1 = false →
        (delNodeList target l).1 = l ∧ (delNodeList target l).2.2 = [])
      ?_ ?_ ?_
    · intro n l ih hflag
      cases hf : l.find? (fun c => c.name = target) with
      | some found =>
        rw [GNode.delNode, hf] at hflag
        simp at hflag
      | none =>
        rw [GNode.delNode, hf] at hflag ⊢
        obtain ⟨h1, h2⟩ := ih hflag
        simp [h1, h2]
    · intro _
      simp [delNodeList]
    · intro c cs ihc ihcs hflag
      rw [delNodeList] at hflag ⊢
      by_cases hr : (GNode.delNode target c).2.1
      · simp [hr] at hflag
      · simp only [Bool.not_eq_true] at hr
        simp only [hr, if_false] at hflag ⊢
        obtain ⟨h1, h2⟩ := ihc hr
        obtain ⟨h3, h4⟩ := ihcs hflag
        simp [h1, h2, h3, h4]
  exact main

theorem delNodeN_of_flag_false {target : String} (t : GNode)
    (h : (GNode.delNode target t).2.1 = false) :
    (GNode.delNode target t).1 = t ∧ (GNode.delNode target t).2.2 = [] := by
  cases t with
  | mk n l =>
    cases hf : l.find? (fun c => c.name = target) with
    | some found =>
      rw [GNode.delNode, hf] at h
      simp at h
    | none =>
      rw [GNode.delNode, hf] at h ⊢
      obtain ⟨h1, h2⟩ := delNode_of_flag_false l h
      simp [h1, h2]

theorem mem_delParentsList {s : String} :
    ∀ l : List GNode, s ∈ delParentsList l ↔ s ∈ reachNamesList l := by
  refine gIndList
    (P := fun t => s ∈ t.delParents ↔ s ∈ t.strictDescNames)
    (Q := fun l => s ∈ delParentsList l ↔ s ∈ reachNamesList l)
    ?_ ?_ ?_
  · intro n l ih
    cases ih
    rw [GNode.delParents, GNode.strictDescNames, GNode.inputs_mk]
    tauto
  · simp [delParentsList, reachNamesList]
  · intro c cs ihc ihcs
    rw [delParentsList, reachNamesList]
    have : s ∈ c.delParents ↔ s ∈ c.strictDescNames := ihc
    rw [reachNames_eq c]
    simp only [List.mem_append, List.mem_cons, List.mem_singleton, this, ihcs]
    tauto

theorem mem_delParents {s : String} (t : GNode) :
    s ∈ t.delParents ↔ s ∈ t.strictDescNames := by
  cases t with
  | mk n l =>
    rw [GNode.delParents, GNode.strictDescNames, GNode.inputs_mk]
    exact mem_delParentsList l

theorem delNode_tags_subset {target : String} :
    ∀ l : List GNode, ∀ s ∈ (delNodeList target l).2.2, s ∈ reachNamesList l := by
  refine gIndList
    (P := fun t => ∀ s ∈ (GNode.delNode target t).2.2, s ∈ t.strictDescNames)
    (Q := fun l => ∀ s ∈ (delNodeList target l).2.2, s ∈ reachNamesList l)
    ?_ ?_ ?_
  · intro n l ih s hs
    cases hf : l.find? (fun c => c.name = target) with
    | some found =>
      rw [GNode.delNode, hf] at hs
      have hmem : found ∈ l := List.mem_of_find?_eq_some hf
      have hname : found.name = target := by
        have := List.find?_some hf
        simpa using this
      simp only [List.mem_append, List.mem_singleton] at hs
      rw [GNode.strictDescNames, GNode.inputs_mk, mem_reachNamesList]
      rcases hs with h | rfl
      · exact ⟨found, hmem,
          strictDescNames_subset_reachNames ((mem_delParents found).mp h)⟩
      · exact ⟨found, hmem, hname ▸ name_mem_reachNames found⟩
    | none =>
      rw [GNode.delNode, hf] at hs
      rw [GNode.strictDescNames, GNode.inputs_mk]
      exact ih s hs
  · simp [delNodeList]
  · intro c cs ihc ihcs s hs
    rw [delNodeList] at hs
    rw [reachNamesList]
    by_cases hr : (GNode.delNode target c).2.1
    · simp only [hr, if_true] at hs
      exact List.mem_append.mpr
        (Or.inl (strictDescNames_subset_reachNames (ihc s hs)))
    · simp only [Bool.not_eq_true] at hr
      simp only [hr, if_false] at hs
      rcases List.mem_append.mp hs with h | h
      · exact List.mem_append.mpr
          (Or.inl (strictDescNames_subset_reachNames (ihc s h)))
      · exact List.mem_append.mpr (Or.inr (ihcs s h))

theorem delNodeN_tags_subset {target : String} (t : GNode) :
    ∀ s ∈ (GNode.delNode target t).2.2, s ∈ t.strictDescNames := by
  cases t with
  | mk n l =>
    intro s hs
    rw [GNode.strictDescNames, GNode.inputs_mk]
    cases hf : l.find? (fun c => c.name = target) with
    | some found =>
      rw [GNode.delNode, hf] at hs
      have hmem : found ∈ l := List.mem_of_find?_eq_some hf
      have hname : found.name = target := by
        have := List.find?_some hf
        simpa using this
      simp only [List.mem_append, List.mem_singleton] at hs
      rw [mem_reachNamesList]
      rcases hs with h | rfl
      · exact ⟨found, hmem,
          strictDescNames_subset_reachNames ((mem_delParents found).mp h)⟩
      · exact ⟨found, hmem, hname ▸ name_mem_reachNames found⟩
    | none =>
      rw [GNode.delNode, hf] at hs
      exact delNode_tags_subset l s hs

theorem delNode_target_mem_tags {target : String} :
    ∀ l : List GNode, (delNodeList target l).2.1 = true →
      target ∈ (delNodeList target l).2.2 := by
  refine gIndList
    (P := fun t => (GNode.delNode target t).2.1 = true →
      target ∈ (GNode.delNode target t).2.2)
    (Q := fun l => (delNodeList target l).2.1 = true →
      target ∈ (delNodeList target l).2.2)
    ?_ ?_ ?_
  · intro n l ih hflag
    cases hf : l.find? (fun c => c.name = target) with
    | some found =>
      rw [GNode.delNode, hf]
      simp
    | none =>
      rw [GNode.delNode, hf] at hflag ⊢
      exact ih hflag
  · simp [delNodeList]
  · intro c cs ihc ihcs hflag
    rw [delNodeList] at hflag ⊢
    by_cases hr : (GNode.delNode target c).2.1
    · simp only [hr, if_true] at hflag ⊢
      exact ihc hr
    · simp only [Bool.not_eq_true] at hr
      simp only [hr, if_false] at hflag ⊢
      exact List.mem_append.mpr (Or.inr (ihcs hflag))

theorem delNodeN_target_mem_tags {target : String} (t : GNode)
    (h : (GNode.delNode target t).2.1 = true) :
    target ∈ (GNode.delNode target t).2.2 := by
  cases t with
  | mk n l =>
    cases hf : l.find? (fun c => c.name = target) with
    | some found =>
      rw [GNode.delNode, hf]
      simp
    | none =>
      rw [GNode.delNode, hf] at h ⊢
      exact delNode_target_mem_tags l h

theorem find?_eraseP_decomp {p : GNode → Bool} :
    ∀ {l : List GNode} {a : GNode}, l.find? p = some a →
      ∃ l₁ l₂, l = l₁ ++ a :: l₂ ∧ l.eraseP p = l₁ ++ l₂ := by
  intro l
  induction l with
  | nil => intro a h; simp [List.find?] at h
  | cons c cs ih =>
    intro a h
    by_cases hc : p c
    · rw [List.find?_cons_of_pos _ hc] at h
      cases h
      exact ⟨[], cs, by simp, by simp [List.eraseP_cons_of_pos hc]⟩
    · rw [List.find?_cons_of_neg _ (by simpa using hc)] at h
      obtain ⟨l₁, l₂, h1, h2⟩ := ih h
      exact ⟨c :: l₁, l₂, by simp [h1],
        by simp [List.eraseP_cons_of_neg (by simpa using hc), h2]⟩

theorem reachAvoid_of_not_mem {avoid : String} :
    ∀ l : List GNode, avoid ∉ reachNamesList l →
      reachAvoidList avoid l = reachNamesList l := by
  refine gIndList
    (P := fun t => avoid ∉ t.reachNames → t.reachAvoid avoid = t.reachNames)
    (Q := fun l => avoid ∉ reachNamesList l →
      reachAvoidList avoid l = reachNamesList l)
    ?_ ?_ ?_
  · intro n l ih h
    rw [GNode.reachNames] at h ⊢
    simp only [List.mem_cons] at h
    push_neg at h
    rw [GNode.reachAvoid, if_neg (fun he => h.1 he.symm), ih h.2]
  · simp [reachAvoidList, reachNamesList]
  · intro c cs ihc ihcs h
    rw [reachNamesList] at h ⊢
    simp only [List.mem_append] at h
    push_neg at h
    rw [reachAvoidList, ihc h.1, ihcs h.2]

theorem reachAvoidN_of_not_mem {avoid : String} (t : GNode)
    (h : avoid ∉ t.reachNames) : t.reachAvoid avoid = t.reachNames := by
  cases t with
  | mk n l =>
    rw [GNode.reachNames] at h ⊢
    simp only [List.mem_cons] at h
    push_neg at h
    rw [GNode.reachAvoid, if_neg (fun he => h.1 he.symm),
      reachAvoid_of_not_mem l h.2]

theorem mem_reachAvoidList {avoid s : String} {l : List GNode} :
    s ∈ reachAvoidList avoid l ↔ ∃ c ∈ l, s ∈ c.reachAvoid avoid := by
  induction l with
  | nil => simp [reachAvoidList]
  | cons c cs ih =>
    rw [reachAvoidList]
    simp only [List.mem_append, ih, List.mem_cons]
    constructor
    · rintro (h | ⟨c', hc', hs⟩)
      · exact ⟨c, Or.inl rfl, h⟩
      · exact ⟨c', Or.inr hc', hs⟩
    · rintro ⟨c', (rfl | hc'), hs⟩
      · exact Or.inl hs
      · exact Or.inr ⟨c', hc', hs⟩

/-- After a successful deletion, no tagged name survives anywhere in the
updated tree (name uniqueness assumed, as per the data-model invariant). -/
theorem delNode_tags_gone {target : String} :
    ∀ l : List GNode, (reachNamesList l).Nodup →
      (delNodeList target l).2.1 = true →
      ∀ m ∈ (delNodeList target l).2.2,
        m ∉ reachNamesList (delNodeList target l).1 := by
  refine gIndList
    (P := fun t => t.reachNames.Nodup → (GNode.delNode target t).2.1 = true →
      ∀ m ∈ (GNode.delNode target t).2.2,
        m ∉ (GNode.delNode target t).1.reachNames)
    (Q := fun l => (reachNamesList l).Nodup →
      (delNodeList target l).2.1 = true →
      ∀ m ∈ (delNodeList target l).2.2,
        m ∉ reachNamesList (delNodeList target l).1)
    ?_ ?_ ?_
  · intro n l ih hnd _hflag m hm
    rw [GNode.reachNames, List.nodup_cons] at hnd
    cases hf : l.find? (fun c => c.name = target) with
    | some found =>
      rw [GNode.delNode, hf] at hm ⊢
      have hmem : found ∈ l := List.mem_of_find?_eq_some hf
      have hname : found.name = target := by
        have := List.find?_some hf
        simpa using this
      -- the tagged name sits in the removed subtree
      have hmf : m ∈ found.reachNames := by
        simp only [List.mem_append, List.mem_singleton] at hm
        rcases hm with h | rfl
        · exact strictDescNames_subset_reachNames ((mem_delParents found).mp h)
        · exact hname ▸ name_mem_reachNames found
      obtain ⟨l₁, l₂, hdecomp, herase⟩ := find?_eraseP_decomp hf
      have hrl : reachNamesList l =
          reachNamesList l₁ ++ (found.reachNames ++ reachNamesList l₂) := by
        rw [hdecomp, reachNamesList_append, reachNamesList]
      rw [GNode.reachNames, List.mem_cons]
      rintro (rfl | hm')
      · exact hnd.1 (hrl ▸ List.mem_append.mpr
          (Or.inr (List.mem_append.mpr (Or.inl hmf))))
      · rw [herase, reachNamesList_append] at hm'
        have hnd2 := hnd.2
        rw [hrl] at hnd2
        rcases List.mem_append.mp hm' with h1 | h2
        · exact List.disjoint_of_nodup_append hnd2 h1
            (List.mem_append.mpr (Or.inl hmf))
        · have hnd3 := (List.nodup_append.mp hnd2).2.1
          exact List.disjoint_of_nodup_append hnd3 hmf h2
    | none =>
      rw [GNode.delNode, hf] at hm ⊢
      rw [GNode.reachNames, List.mem_cons]
      rintro (rfl | hm')
      · exact hnd.1 (delNode_tags_subset l m hm)
      · exact ih hnd.2 (by rw [GNode.delNode, hf] at _hflag; exact _hflag) m hm hm'
  · intro _ h
    simp [delNodeList] at h
  · intro c cs ihc ihcs hnd hflag m hm
    rw [reachNamesList, List.nodup_append] at hnd
    rw [delNodeList] at hflag hm ⊢
    by_cases hr : (GNode.delNode target c).2.1
    · simp only [hr, if_true] at hflag hm ⊢
      rw [reachNamesList, List.mem_append]
      have hmc : m ∈ c.reachNames :=
        strictDescNames_subset_reachNames (delNodeN_tags_subset c m hm)
      rintro (h1 | h2)
      · exact ihc hnd.1 hr m hm h1
      · exact hnd.2.2 hmc h2
    · simp only [Bool.not_eq_true] at hr
      simp only [hr, if_false] at hflag hm ⊢
      obtain ⟨hc1, hc2⟩ := delNodeN_of_flag_false c hr
      rw [hc2, List.nil_append] at hm
      rw [hc1]
      simp only [reachNamesList, List.mem_append]
      have hmcs : m ∈ reachNamesList cs := delNode_tags_subset cs m hm
      rintro (h1 | h2)
      · exact hnd.2.2 h1 hmcs
      · exact ihcs hnd.2.1 hflag m hm h2

theorem delNodeN_tags_gone {target : String} (t : GNode)
    (hnd : t.reachNames.Nodup) (hflag : (GNode.delNode target t).2.1 = true) :
    ∀ m ∈ (GNode.delNode target t).2.2,
      m ∉ (GNode.delNode target t).1.reachNames := by
  cases t with
  | mk n l =>
    intro m hm
    rw [GNode.reachNames, List.nodup_cons] at hnd
    cases hf : l.find? (fun c => c.name = target) with
    | some found =>
      rw [GNode.delNode, hf] at hm ⊢
      have hmem : found ∈ l := List.mem_of_find?_eq_some hf
      have hname : found.name = target := by
        have := List.find?_some hf
        simpa using this
      have hmf : m ∈ found.reachNames := by
        simp only [List.mem_append, List.mem_singleton] at hm
        rcases hm with h | rfl
        · exact strictDescNames_subset_reachNames ((mem_delParents found).mp h)
        · exact hname ▸ name_mem_reachNames found
      obtain ⟨l₁, l₂, hdecomp, herase⟩ := find?_eraseP_decomp hf
      have hrl : reachNamesList l =
          reachNamesList l₁ ++ (found.reachNames ++ reachNamesList l₂) := by
        rw [hdecomp, reachNamesList_append, reachNamesList]
      rw [GNode.reachNames, List.mem_cons]
      rintro (rfl | hm')
      · exact hnd.1 (hrl ▸ List.mem_append.mpr
          (Or.inr (List.mem_append.mpr (Or.inl hmf))))
      · rw [herase, reachNamesList_append] at hm'
        have hnd2 := hnd.2
        rw [hrl] at hnd2
        rcases List.mem_append.mp hm' with h1 | h2
        · exact List.disjoint_of_nodup_append hnd2 h1
            (List.mem_append.mpr (Or.inl hmf))
        · have hnd3 := (List.nodup_append.mp hnd2).2.1
          exact List.disjoint_of_nodup_append hnd3 hmf h2
    | none =>
      rw [GNode.delNode, hf] at hm hflag ⊢
      rw [GNode.reachNames, List.mem_cons]
      rintro (rfl | hm')
      · exact hnd.1 (delNode_tags_subset l m hm)
      · exact delNode_tags_gone l hnd.2 hflag m hm hm'

/-- A name reachable before a successful deletion but only through nodes
named `target` is tagged for removal (name uniqueness assumed). -/
theorem delNode_solely_tagged {target : String} :
    ∀ l : List GNode, (reachNamesList l).Nodup →
      (delNodeList target l).2.1 = true →
      ∀ m ∈ reachNamesList l, m ∉ reachAvoidList target l →
        m ∈ (delNodeList target l).2.2 := by
  refine gIndList
    (P := fun t => t.reachNames.Nodup → (GNode.delNode target t).2.1 = true →
      ∀ m ∈ t.reachNames, m ∉ t.reachAvoid target →
        m ∈ (GNode.delNode target t).2.2)
    (Q := fun l => (reachNamesList l).Nodup →
      (delNodeList target l).2.1 = true →
      ∀ m ∈ reachNamesList l, m ∉ reachAvoidList target l →
        m ∈ (delNodeList target l).2.2)
    ?_ ?_ ?_
  · intro n l ih hnd hflag m hm hra
    rw [GNode.reachNames, List.nodup_cons] at hnd
    cases hf : l.find? (fun c => c.name = target) with
    | some found =>
      have hmem : found ∈ l := List.mem_of_find?_eq_some hf
      have hname : found.name = target := by
        have := List.find?_some hf
        simpa using this
      have htmem : target ∈ reachNamesList l :=
        mem_reachNamesList.mpr ⟨found, hmem, hname ▸ name_mem_reachNames found⟩
      have hnt : n ≠ target := fun he => hnd.1 (he ▸ htmem)
      rw [GNode.reachAvoid, if_neg hnt] at hra
      simp only [List.mem_cons] at hra
      push_neg at hra
      rw [GNode.reachNames, List.mem_cons] at hm
      rcases hm with rfl | hm
      · exact absurd rfl hra.1
      rw [GNode.delNode, hf]
      obtain ⟨l₁, l₂, hdecomp, _⟩ := find?_eraseP_decomp hf
      have hrl : reachNamesList l =
          reachNamesList l₁ ++ (found.reachNames ++ reachNamesList l₂) := by
        rw [hdecomp, reachNamesList_append, reachNamesList]
      have hnd2 := hnd.2
      rw [hrl] at hnd2
      rw [hrl] at hm
      rcases List.mem_append.mp hm with h1 | h23
      · -- m lies in a sibling subtree before the target: contradiction with
        -- m being unreachable when avoiding target
        obtain ⟨c, hc, hmc⟩ := mem_reachNamesList.mp h1
        have htc : target ∉ c.reachNames := fun ht =>
          List.disjoint_of_nodup_append hnd2
            (mem_reachNamesList.mpr ⟨c, hc, ht⟩)
            (List.mem_append.mpr (Or.inl (hname ▸ name_mem_reachNames found)))
        have : m ∈ c.reachAvoid target := by
          rw [reachAvoidN_of_not_mem c htc]; exact hmc
        exact absurd (mem_reachAvoidList.mpr
          ⟨c, hdecomp ▸ List.mem_append.mpr (Or.inl hc), this⟩) hra.2
      rcases List.mem_append.mp h23 with h2 | h3
      · -- m lies in the removed subtree: it is tagged
        rw [reachNames_eq found, List.mem_cons] at h2
        simp only [List.mem_append, List.mem_singleton]
        rcases h2 with rfl | h2
        · exact Or.inr hname
        · exact Or.inl ((mem_delParents found).mpr h2)
      · -- m lies in a sibling subtree after the target: contradiction
        obtain ⟨c, hc, hmc⟩ := mem_reachNamesList.mp h3
        have hnd3 := (List.nodup_append.mp hnd2).2.1
        have htc : target ∉ c.reachNames := fun ht =>
          List.disjoint_of_nodup_append hnd3
            (hname ▸ name_mem_reachNames found)
            (mem_reachNamesList.mpr ⟨c, hc, ht⟩)
        have : m ∈ c.reachAvoid target := by
          rw [reachAvoidN_of_not_mem c htc]; exact hmc
        exact absurd (mem_reachAvoidList.mpr
          ⟨c, hdecomp ▸ List.mem_append.mpr
            (Or.inr (List.mem_cons_of_mem _ hc)), this⟩) hra.2
    | none =>
      rw [GNode.delNode, hf] at hflag ⊢
      have htl : target ∈ reachNamesList l :=
        delNode_tags_subset l target (delNode_target_mem_tags l hflag)
      have hnt : n ≠ target := fun he => hnd.1 (he ▸ htl)
      rw [GNode.reachAvoid, if_neg hnt] at hra
      simp only [List.mem_cons] at hra
      push_neg at hra
      rw [GNode.reachNames, List.mem_cons] at hm
      rcases hm with rfl | hm
      · exact absurd rfl hra.1
      exact ih hnd.2 hflag m hm hra.2
  · intro _ h
    simp [delNodeList] at h
  · intro c cs ihc ihcs hnd hflag m hm hra
    rw [reachNamesList, List.nodup_append] at hnd
    rw [reachNamesList, List.mem_append] at hm
    rw [reachAvoidList, List.mem_append] at hra
    push_neg at hra
    rw [delNodeList] at hflag ⊢
    by_cases hr : (GNode.delNode target c).2.1
    · simp only [hr, if_true] at hflag ⊢
      rcases hm with hmc | hmcs
      · exact ihc hnd.1 hr m hmc hra.1
      · have htc : target ∈ c.reachNames :=
          strictDescNames_subset_reachNames
            (delNodeN_tags_subset c target (delNodeN_target_mem_tags c hr))
        have htcs : target ∉ reachNamesList cs := fun h => hnd.2.2 htc h
        rw [reachAvoid_of_not_mem cs htcs] at hra
        exact absurd hmcs hra.2
    · simp only [Bool.not_eq_true] at hr
      simp only [hr, if_false] at hflag ⊢
      obtain ⟨_, hc2⟩ := delNodeN_of_flag_false c hr
      rw [hc2, List.nil_append]
      rcases hm with hmc | hmcs
      · have htcs : target ∈ reachNamesList cs :=
          delNode_tags_subset cs target (delNode_target_mem_tags cs hflag)
        have htc : target ∉ c.reachNames := fun h => hnd.2.2 h htcs
        rw [reachAvoidN_of_not_mem c htc] at hra
        exact absurd hmc hra.1
      · exact ihcs hnd.2.1 hflag m hmcs hra.2

theorem delNodeN_solely_tagged {target : String} (t : GNode)
    (hnd : t.reachNames.Nodup) (hflag : (GNode.delNode target t).2.1 = true) :
    ∀ m ∈ t.reachNames, m ∉ t.reachAvoid target →
      m ∈ (GNode.delNode target t).2.2 := by
  cases t with
  | mk n l =>
    intro m hm hra
    rw [GNode.reachNames, List.nodup_cons] at hnd
    cases hf : l.find? (fun c => c.name = target) with
    | some found =>
      have hmem : found ∈ l := List.mem_of_find?_eq_some hf
      have hname : found.name = target := by
        have := List.find?_some hf
        simpa using this
      have htmem : target ∈ reachNamesList l :=
        mem_reachNamesList.mpr ⟨found, hmem, hname ▸ name_mem_reachNames found⟩
      have hnt : n ≠ target := fun he => hnd.1 (he ▸ htmem)
      rw [GNode.reachAvoid, if_neg hnt] at hra
      simp only [List.mem_cons] at hra
      push_neg at hra
      rw [GNode.reachNames, List.mem_cons] at hm
      rcases hm with rfl | hm
      · exact absurd rfl hra.1
      rw [GNode.delNode, hf]
      obtain ⟨l₁, l₂, hdecomp, _⟩ := find?_eraseP_decomp hf
      have hrl : reachNamesList l =
          reachNamesList l₁ ++ (found.reachNames ++ reachNamesList l₂) := by
        rw [hdecomp, reachNamesList_append, reachNamesList]
      have hnd2 := hnd.2
      rw [hrl] at hnd2
      rw [hrl] at hm
      rcases List.mem_append.mp hm with h1 | h23
      · obtain ⟨c, hc, hmc⟩ := mem_reachNamesList.mp h1
        have htc : target ∉ c.reachNames := fun ht =>
          List.disjoint_of_nodup_append hnd2
            (mem_reachNamesList.mpr ⟨c, hc, ht⟩)
            (List.mem_append.mpr (Or.inl (hname ▸ name_mem_reachNames found)))
        have : m ∈ c.reachAvoid target := by
          rw [reachAvoidN_of_not_mem c htc]; exact hmc
        exact absurd (mem_reachAvoidList.mpr
          ⟨c, hdecomp ▸ List.mem_append.mpr (Or.inl hc), this⟩) hra.2
      rcases List.mem_append.mp h23 with h2 | h3
      · rw [reachNames_eq found, List.mem_cons] at h2
        simp only [List.mem_append, List.mem_singleton]
        rcases h2 with rfl | h2
        · exact Or.inr hname
        · exact Or.inl ((mem_delParents found).mpr h2)
      · obtain ⟨c, hc, hmc⟩ := mem_reachNamesList.mp h3
        have hnd3 := (List.nodup_append.mp hnd2).2.1
        have htc : target ∉ c.reachNames := fun ht =>
          List.disjoint_of_nodup_append hnd3
            (hname ▸ name_mem_reachNames found)
            (mem_reachNamesList.mpr ⟨c, hc, ht⟩)
        have : m ∈ c.reachAvoid target := by
          rw [reachAvoidN_of_not_mem c htc]; exact hmc
        exact absurd (mem_reachAvoidList.mpr
          ⟨c, hdecomp ▸ List.mem_append.mpr
            (Or.inr (List.mem_cons_of_mem _ hc)), this⟩) hra.2
    | none =>
      rw [GNode.delNode, hf] at hflag ⊢
      have htl : target ∈ reachNamesList l :=
        delNode_tags_subset l target (delNode_target_mem_tags l hflag)
      have hnt : n ≠ target := fun he => hnd.1 (he ▸ htl)
      rw [GNode.reachAvoid, if_neg hnt] at hra
      simp only [List.mem_cons] at hra
      push_neg at hra
      rw [GNode.reachNames, List.mem_cons] at hm
      rcases hm with rfl | hm
      · exact absurd rfl hra.1
      exact delNode_solely_tagged l hnd.2 hflag m hm hra.2

/-- Every name appearing as a key of some reachable node's `parents` map is
a strictly reachable name of the tree. -/
theorem input_names_strictDesc :
    ∀ l : List GNode, ∀ u ∈ subnodesList l, ∀ s ∈ u.inputs.map GNode.name,
      s ∈ reachNamesList l := by
  refine gIndList
    (P := fun t => ∀ u ∈ t.subnodes, ∀ s ∈ u.inputs.map GNode.name,
      s ∈ t.strictDescNames)
    (Q := fun l => ∀ u ∈ subnodesList l, ∀ s ∈ u.inputs.map GNode.name,
      s ∈ reachNamesList l)
    ?_ ?_ ?_
  · intro n l ih u hu s hs
    rw [GNode.subnodes, List.mem_cons] at hu
    rw [GNode.strictDescNames, GNode.inputs_mk]
    rcases hu with rfl | hu
    · rw [GNode.inputs_mk] at hs
      exact name_mem_of_mem_map_name hs
    · exact ih u hu s hs
  · intro u hu
    simp [subnodesList] at hu
  · intro c cs ihc ihcs u hu s hs
    rw [subnodesList, List.mem_append] at hu
    rw [reachNamesList, List.mem_append]
    rcases hu with hu | hu
    · exact Or.inl (strictDescNames_subset_reachNames (ihc u hu s hs))
    · exact Or.inr (ihcs u hu s hs)

theorem input_namesN_strictDesc (t : GNode) :
    ∀ u ∈ t.subnodes, ∀ s ∈ u.inputs.map GNode.name, s ∈ t.strictDescNames := by
  cases t with
  | mk n l =>
    intro u hu s hs
    rw [GNode.subnodes, List.mem_cons] at hu
    rw [GNode.strictDescNames, GNode.inputs_mk]
    rcases hu with rfl | hu
    · rw [GNode.inputs_mk] at hs
      exact name_mem_of_mem_map_name hs
    · exact input_names_strictDesc l u hu s hs

theorem not_mem_regKeys_filter {tags : List String} {r : Reg} {m : String}
    (hm : m ∈ tags) :
    m ∉ regKeys (r.filter (fun e => !tags.contains e.1)) := by
  intro h
  obtain ⟨e, he, rfl⟩ := List.mem_map.mp h
  have hc := List.of_mem_filter he
  rw [Bool.not_eq_true'] at hc
  simp at hc
  exact hc hm

/-- Claim C2: after `Audiograph::delete_node(name)` returns `true`, the
deleted name — and every name reachable before only through nodes of that
name — is gone from the registry, and appears in no reachable node's
`parents` map (node names unique, as the data model requires). -/
theorem c2_delete_node_removes (g : AG) (target : String)
    (hnd : g.root.reachNames.Nodup)
    (hfound : (g.deleteNode target).2 = true) :
    ∀ m, (m = target ∨
        (m ∈ g.root.reachNames ∧ m ∉ g.root.reachAvoid target)) →
      m ∉ regKeys (g.deleteNode target).1.reg ∧
      ∀ u ∈ (g.deleteNode target).1.root.subnodes,
        m ∉ u.inputs.map GNode.name := by
  intro m hm
  have hflag : (GNode.delNode target g.root).2.1 = true := hfound
  have htag : m ∈ (GNode.delNode target g.root).2.2 := by
    rcases hm with rfl | ⟨hmem, hra⟩
    · exact delNodeN_target_mem_tags g.root hflag
    · exact delNodeN_solely_tagged g.root hnd hflag m hmem hra
  constructor
  · exact not_mem_regKeys_filter htag
  · intro u hu hs
    exact delNodeN_tags_gone g.root hnd hflag m htag
      (strictDescNames_subset_reachNames
        (input_namesN_strictDesc _ u hu m hs))

/-- Witness for `c2_delete_node_removes`: the graph of the repository's
`remove_the_whole_audiograph` test (two sine waves into a mixer under the
Watcher); deleting `"mixer"` removes `"sw1"` (solely reachable through the
mixer) from the registry. -/
theorem c2_witness :
    "sw1" ∉ regKeys ((AG.new (watcherOn (GNode.mk "mixer"
        [GNode.mk "sw1" [], GNode.mk "sw2" []]))).deleteNode "mixer").1.reg :=
  (c2_delete_node_removes
    (AG.new (watcherOn (GNode.mk "mixer" [GNode.mk "sw1" [], GNode.mk "sw2" []])))
    "mixer" (by decide) (by decide) "sw1"
    (Or.inr ⟨by decide, by decide⟩)).1

/-! ## The event-queue sort invariant (claim C4) -/

/-- Ordering of the queue: decreasing absolute sample index
(src/event.rs lines 133-141 reverse the comparison). -/
def EvDesc {P : Type} (a b : Ev P) : Prop := b.sample ≤ a.sample

theorem mem_insEvDesc {P : Type} {e x : Ev P} {l : List (Ev P)} :
    x ∈ insEvDesc e l ↔ x = e ∨ x ∈ l := by
  induction l with
  | nil => simp [insEvDesc]
  | cons a as ih =>
    rw [insEvDesc]
    by_cases h : e.sample < a.sample
    · simp only [if_pos h, List.mem_cons, ih]
      tauto
    · simp only [if_neg h, List.mem_cons]

theorem insEvDesc_sorted {P : Type} {e : Ev P} {l : List (Ev P)}
    (h : List.Sorted (EvDesc (P := P)) l) :
    List.Sorted (EvDesc (P := P)) (insEvDesc e l) := by
  induction l with
  | nil => simp [insEvDesc]
  | cons a as ih =>
    rw [List.sorted_cons] at h
    rw [insEvDesc]
    by_cases hc : e.sample < a.sample
    · rw [if_pos hc, List.sorted_cons]
      refine ⟨?_, ih h.2⟩
      intro b hb
      rcases mem_insEvDesc.mp hb with rfl | hb
      · exact le_of_lt hc
      · exact h.1 b hb
    · rw [if_neg hc, List.sorted_cons]
      refine ⟨?_, List.sorted_cons.mpr h⟩
      intro b hb
      rcases List.mem_cons.mp hb with rfl | hb
      · exact Nat.le_of_not_lt hc
      · exact le_trans (h.1 b hb) (Nat.le_of_not_lt hc)

theorem insEvDesc_filter {P : Type} (e : Ev P) (l : List (Ev P)) (k : Nat) :
    (insEvDesc e l).filter (fun a => a.sample == k) =
      if e.sample = k then e :: l.filter (fun a => a.sample == k)
      else l.filter (fun a => a.sample == k) := by
  induction l with
  | nil =>
    rw [insEvDesc]
    by_cases h : e.sample = k
    · simp [List.filter_cons, h]
    · simp [List.filter_cons, h]
  | cons a as ih =>
    rw [insEvDesc]
    by_cases hc : e.sample < a.sample
    · rw [if_pos hc]
      by_cases hk : e.sample = k
      · have hak : ¬ a.sample = k := by
          subst hk; exact fun h => absurd (h ▸ hc) (lt_irrefl _)
        simp only [if_pos hk] at ih ⊢
        simp [List.filter_cons, hak, ih]
      · simp only [if_neg hk] at ih ⊢
        by_cases hak : a.sample = k <;> simp [List.filter_cons, hak, ih]
    · rw [if_neg hc]
      by_cases hk : e.sample = k <;>
        simp [List.filter_cons, hk]

theorem sortEvDesc_sorted {P : Type} (l : List (Ev P)) :
    List.Sorted (EvDesc (P := P)) (sortEvDesc l) := by
  induction l with
  | nil => simp [sortEvDesc]
  | cons a as ih => exact insEvDesc_sorted ih

theorem sortEvDesc_filter {P : Type} (l : List (Ev P)) (k : Nat) :
    (sortEvDesc l).filter (fun a => a.sample == k) =
      l.filter (fun a => a.sample == k) := by
  induction l with
  | nil => simp [sortEvDesc]
  | cons a as ih =>
    rw [sortEvDesc, insEvDesc_filter]
    by_cases hk : a.sample = k
    · rw [if_pos hk, ih, List.filter_cons, if_pos (by simpa using hk)]
    · rw [if_neg hk, ih, List.filter_cons, if_neg (by simpa using hk)]

theorem registerEvent_sorted {P : Type} (evs : List (Ev P)) (e : Ev P) :
    List.Sorted (EvDesc (P := P)) (registerEvent evs e) :=
  sortEvDesc_sorted _

/-- Claim C4: after any sequence of `register_event` calls on a fresh node,
the event queue is sorted by decreasing target sample index, and for every
sample index `k` the events targeting `k` appear in their registration
order (`Vec::sort` is stable and the comparator only inspects the sample
index). -/
theorem c4_register_event_sort_invariant {P : Type} (l : List (Ev P)) :
    List.Sorted (EvDesc (P := P)) (registerAll l) ∧
    ∀ k, (registerAll l).filter (fun e => e.sample == k) =
      l.filter (fun e => e.sample == k) := by
  have general : ∀ (l : List (Ev P)) (acc : List (Ev P)),
      List.Sorted (EvDesc (P := P)) acc →
      List.Sorted (EvDesc (P := P)) (l.foldl registerEvent acc) ∧
      ∀ k, (l.foldl registerEvent acc).filter (fun e => e.sample == k) =
        acc.filter (fun e => e.sample == k) ++
          l.filter (fun e => e.sample == k) := by
    intro l
    induction l with
    | nil => intro acc hacc; exact ⟨hacc, by simp⟩
    | cons e es ih =>
      intro acc hacc
      rw [List.foldl_cons]
      obtain ⟨h1, h2⟩ := ih (registerEvent acc e) (registerEvent_sorted acc e)
      refine ⟨h1, ?_⟩
      intro k
      rw [h2 k, registerEvent, sortEvDesc_filter, List.filter_append]
      by_cases hk : e.sample = k
      · simp [List.filter_cons, hk]
      · simp [List.filter_cons, hk]
  obtain ⟨h1, h2⟩ := general l [] (by simp)
  exact ⟨h1, fun k => by rw [registerAll, h2 k, List.filter_nil, List.nil_append]⟩

/-! ## Event drain semantics in `stream_into` (claim C3) -/

theorem playOn_events {P : Type} (e : Ev P) (st : NState P) :
    (playOn e st).events = st.events := by
  cases e with
  | mk s a => cases a <;> rfl

theorem foldl_playOn_events {P : Type} (fired : List (Ev P)) (st : NState P) :
    (fired.foldl (fun acc e => playOn e acc) st).events = st.events := by
  induction fired generalizing st with
  | nil => rfl
  | cons e es ih => rw [List.foldl_cons, ih, playOn_events]

theorem asc_dropWhile_eq_filter {P : Type} (idx : Nat) :
    ∀ r : List (Ev P), r.Pairwise (fun a b => a.sample ≤ b.sample) →
      r.dropWhile (fun e => e.sample ≤ idx) =
        r.filter (fun e => idx < e.sample) := by
  intro r
  induction r with
  | nil => simp
  | cons x xs ih =>
    intro h
    rw [List.pairwise_cons] at h
    by_cases hx : x.sample ≤ idx
    · rw [List.dropWhile_cons_of_pos (by simpa using hx),
        List.filter_cons_of_neg (by simpa using Nat.not_lt.mpr hx)]
      exact ih h.2
    · rw [List.dropWhile_cons_of_neg (by simpa using hx),
        List.filter_cons_of_pos (by simpa using Nat.lt_of_not_le hx)]
      congr 1
      refine (List.filter_eq_self.mpr ?_).symm
      intro b hb
      simpa using Nat.lt_of_lt_of_le (Nat.lt_of_not_le hx) (h.1 b hb)

theorem drainDue_events {P : Type} {idx : Nat} {st : NState P}
    (hs : List.Sorted (EvDesc (P := P)) st.events) :
    (drainDue idx st).events = st.events.filter (fun e => idx < e.sample) := by
  rw [drainDue, foldl_playOn_events]
  show (st.events.reverse.dropWhile (fun e => e.sample ≤ idx)).reverse = _
  have hasc : st.events.reverse.Pairwise (fun a b : Ev P => a.sample ≤ b.sample) := by
    rw [List.pairwise_reverse]
    exact hs
  rw [asc_dropWhile_eq_filter idx _ hasc, List.filter_reverse,
    List.reverse_reverse]

theorem passStep_state_events {S P : Type} (step : P → List S → P × S)
    (zero : S) (input : List S) (idx : Nat) (st : NState P) :
    (passStep step zero input idx st).1.events = (drainDue idx st).events := by
  rw [passStep]
  by_cases h : (drainDue idx st).onFlag
  · simp [h]
  · simp [h]

theorem stAt_events {S P : Type} (step : P → List S → P × S) (zero : S)
    (data : List (Nat → S)) (st : NState P)
    (hs : List.Sorted (EvDesc (P := P)) st.events) :
    ∀ i, (stAt step zero data st i).events =
      st.events.filter (fun e => i ≤ e.sample) := by
  intro i
  induction i with
  | zero =>
    rw [stAt]
    exact (List.filter_eq_self.mpr (fun e _ => by simp)).symm
  | succ i ih =>
    have hsorted : List.Sorted (EvDesc (P := P)) (stAt step zero data st i).events := by
      rw [ih]
      exact List.Pairwise.filter _ hs
    rw [stAt, passStep_state_events, drainDue_events hsorted, ih,
      List.filter_filter]
    refine List.filter_congr ?_
    intro x _
    by_cases h : i < x.sample
    · have h2 : i ≤ x.sample := le_of_lt h
      have h3 : i + 1 ≤ x.sample := h
      simp [h, h2, h3]
    · have h3 : ¬ (i + 1 ≤ x.sample) := h
      simp [h, h3]

theorem runPass_append {S P : Type} (step : P → List S → P × S) (zero : S)
    (data : List (Nat → S)) (l1 l2 : List Nat) (st : NState P) :
    runPass step zero data (l1 ++ l2) st =
      ((runPass step zero data l2 (runPass step zero data l1 st).1).1,
        (runPass step zero data l1 st).2 ++
          (runPass step zero data l2 (runPass step zero data l1 st).1).2) := by
  induction l1 generalizing st with
  | nil => simp [runPass]
  | cons idx rest ih =>
    rw [List.cons_append, runPass, runPass, ih]
    simp

theorem streamInto_state {S P : Type} (step : P → List S → P × S) (zero : S)
    (data : List (Nat → S)) (st : NState P) :
    ∀ N, (streamInto step zero data N st).1 = stAt step zero data st N := by
  intro N
  induction N with
  | zero => rfl
  | succ N ih =>
    rw [streamInto, List.range_succ, runPass_append]
    show (runPass step zero data [N] (streamInto step zero data N st).1).1 = _
    rw [ih, runPass, runPass, stAt]

theorem streamInto_outputs {S P : Type} (step : P → List S → P × S) (zero : S)
    (data : List (Nat → S)) (st : NState P) :
    ∀ N, (streamInto step zero data N st).2 =
      (List.range N).map (fun i =>
        (passStep step zero (data.map (fun b => b i)) i
          (stAt step zero data st i)).2) := by
  intro N
  induction N with
  | zero => rfl
  | succ N ih =>
    rw [streamInto, List.range_succ, runPass_append]
    show (streamInto step zero data N st).2 ++ _ = _
    rw [ih, List.map_append, List.map_cons, List.map_nil]
    congr 1
    show (runPass step zero data [N] (streamInto step zero data N st).1).2 = _
    rw [streamInto_state, runPass, runPass]

/-- Claim C3: in a pass of `stream_into` over samples `0..N` with a
reverse-sorted queue, when sample `idx` is computed every queued event with
target index `≤ idx` has already been applied (the queue then holds exactly
the events with target `> idx`, so events past due at entry fire at the
first sample), the sample is computed from exactly that drained state, and
after the pass the queue retains exactly the events whose target index
exceeds the last sample index `N - 1`. -/
theorem c3_stream_into_event_semantics {S P : Type} (step : P → List S → P × S)
    (zero : S) (data : List (Nat → S)) (N : Nat) (st : NState P)
    (hs : List.Sorted (EvDesc (P := P)) st.events) :
    ((streamInto step zero data N st).1.events =
        st.events.filter (fun e => N ≤ e.sample)) ∧
    (∀ i, (drainDue i (stAt step zero data st i)).events =
        st.events.filter (fun e => i < e.sample)) ∧
    ((streamInto step zero data N st).2 =
        (List.range N).map (fun i =>
          (passStep step zero (data.map (fun b => b i)) i
            (stAt step zero data st i)).2)) := by
  have hdrain : ∀ i, (drainDue i (stAt step zero data st i)).events =
      st.events.filter (fun e => i < e.sample) := by
    intro i
    have hsorted : List.Sorted (EvDesc (P := P)) (stAt step zero data st i).events := by
      rw [stAt_events step zero data st hs i]
      exact List.Pairwise.filter _ hs
    rw [drainDue_events hsorted, stAt_events step zero data st hs i,
      List.filter_filter]
    refine List.filter_congr ?_
    intro x _
    by_cases h : i < x.sample
    · have h2 : i ≤ x.sample := le_of_lt h
      simp [h, h2]
    · simp [h]
  refine ⟨?_, hdrain, streamInto_outputs step zero data st N⟩
  rw [streamInto_state, stAt_events step zero data st hs N]

/-- Witness for `c3_stream_into_event_semantics`: a pass of 4 samples over
a queue holding events for samples 5 and 2 (reverse-sorted); the event for
sample 5 survives the pass, the event for sample 2 does not. -/
theorem c3_witness :
    (streamInto (fun (p : Nat) (_ : List Int) => (p + 1, (0 : Int))) 0 [] 4
        { fstate := 0, onFlag := true, parents := [],
          events := [⟨5, Act.noteOff⟩, ⟨2, Act.noteOff⟩] }).1.events =
      [(⟨5, Act.noteOff⟩ : Ev Nat), ⟨2, Act.noteOff⟩].filter
        (fun e => 4 ≤ e.sample) :=
  (c3_stream_into_event_semantics (fun (p : Nat) (_ : List Int) => (p + 1, (0 : Int)))
    0 [] 4
    { fstate := 0, onFlag := true, parents := [],
      events := [⟨5, Act.noteOff⟩, ⟨2, Act.noteOff⟩] }
    (by simp [List.sorted_cons, EvDesc])).1

/-! ## Gated node produces silence (claim C7) -/

theorem playOn_off {P : Type} {e : Ev P} {st : NState P}
    (hoff : st.onFlag = false) (hno : e.act.isNoteOn = false) :
    (playOn e st).onFlag = false := by
  cases e with
  | mk s a =>
    cases a with
    | updateParams fu => exact hoff
    | noteOn => simp [Act.isNoteOn] at hno
    | noteOff => rfl
    | addInput name => exact hoff

theorem foldl_playOn_off {P : Type} (fired : List (Ev P)) (st : NState P)
    (hoff : st.onFlag = false) (hno : ∀ e ∈ fired, e.act.isNoteOn = false) :
    (fired.foldl (fun acc e => playOn e acc) st).onFlag = false := by
  induction fired generalizing st with
  | nil => exact hoff
  | cons e es ih =>
    rw [List.foldl_cons]
    exact ih _ (playOn_off hoff (hno e (List.mem_cons_self e es)))
      (fun e' he' => hno e' (List.mem_cons_of_mem e he'))

theorem drainDue_off {P : Type} {idx N : Nat} {st : NState P}
    (hoff : st.onFlag = false)
    (hev : ∀ e ∈ st.events, e.sample < N → e.act.isNoteOn = false)
    (hidx : idx < N) :
    (drainDue idx st).onFlag = false ∧
      (drainDue idx st).events.Sublist st.events := by
  constructor
  · rw [drainDue]
    refine foldl_playOn_off _ _ hoff ?_
    intro e he
    have hmem : e ∈ st.events :=
      List.mem_reverse.mp ((List.takeWhile_sublist _).subset he)
    have hdue : e.sample ≤ idx := by
      simpa using List.mem_takeWhile_imp he
    exact hev e hmem (Nat.lt_of_le_of_lt hdue hidx)
  · rw [drainDue, foldl_playOn_events]
    show (st.events.reverse.dropWhile (fun e => e.sample ≤ idx)).reverse.Sublist _
    have h1 := List.dropWhile_sublist (l := st.events.reverse)
      (p := fun e : Ev P => e.sample ≤ idx)
    have := h1.reverse
    rwa [List.reverse_reverse] at this

theorem passStep_off {S P : Type} (step : P → List S → P × S) (zero : S)
    (input : List S) {idx N : Nat} {st : NState P}
    (hoff : st.onFlag = false)
    (hev : ∀ e ∈ st.events, e.sample < N → e.act.isNoteOn = false)
    (hidx : idx < N) :
    (passStep step zero input idx st).1.onFlag = false ∧
      (passStep step zero input idx st).1.events.Sublist st.events ∧
      (passStep step zero input idx st).2 = zero := by
  obtain ⟨h1, h2⟩ := drainDue_off hoff hev hidx
  rw [passStep, if_neg (by rw [h1]; exact Bool.false_ne_true)]
  exact ⟨h1, h2, rfl⟩

theorem runPass_off {S P : Type} (step : P → List S → P × S) (zero : S)
    (data : List (Nat → S)) (N : Nat) :
    ∀ (idxs : List Nat) (st : NState P), (∀ i ∈ idxs, i < N) →
      st.onFlag = false →
      (∀ e ∈ st.events, e.sample < N → e.act.isNoteOn = false) →
      (runPass step zero data idxs st).2 = List.replicate idxs.length zero := by
  intro idxs
  induction idxs with
  | nil => intro st _ _ _; rfl
  | cons idx rest ih =>
    intro st hidx hoff hev
    obtain ⟨h1, h2, h3⟩ := passStep_off step zero
      (data.map (fun b => b idx)) hoff hev
      (hidx idx (List.mem_cons_self idx rest))
    rw [runPass, List.length_cons, List.replicate_succ]
    rw [ih _ (fun i hi => hidx i (List.mem_cons_of_mem idx hi)) h1
      (fun e he hlt => hev e (h2.subset he) hlt), h3]

/-- Claim C7: a node whose `on` flag is false and whose queue contains no
`NoteOn` event due within the pass writes `Sample::zero()` at every one of
the `N` sample positions, whatever its inputs and processor do. -/
theorem c7_off_node_streams_zeros {S P : Type} (step : P → List S → P × S)
    (zero : S) (data : List (Nat → S)) (N : Nat) (st : NState P)
    (hoff : st.onFlag = false)
    (hev : ∀ e ∈ st.events, e.sample < N → e.act.isNoteOn = false) :
    (streamInto step zero data N st).2 = List.replicate N zero := by
  rw [streamInto, runPass_off step zero data N (List.range N) st
    (fun i hi => List.mem_range.mp hi) hoff hev, List.length_range]

/-- Witness for `c7_off_node_streams_zeros`: a gated-off summing node with
a `NoteOn` scheduled beyond the pass streams three zeros. -/
theorem c7_witness :
    (streamInto (fun (p : Nat) (v : List Int) => (p + 1, v.foldl (· + ·) 0))
        0 [] 3
        { fstate := 0, onFlag := false, parents := [],
          events := [⟨7, Act.noteOn⟩] }).2 = List.replicate 3 (0 : Int) :=
  c7_off_node_streams_zeros _ 0 [] 3
    { fstate := 0, onFlag := false, parents := [],
      events := [⟨7, Act.noteOn⟩] }
    rfl
    (by intro e he hlt
        rcases List.mem_singleton.mp he with rfl
        simp at hlt)

/-! ## The `on` gate shields the processor state (claim C10) -/

/-- Claim C10: at a sample index where the node's gate is false (after the
events due at that index have been applied), `process_next_value` is not
invoked: the state the loop carries to the next index is exactly the
drained state — processor state included — and the emitted sample is zero.
Only event application can have changed the node at such an index. -/
theorem c10_off_sample_frame {S P : Type} (step : P → List S → P × S)
    (zero : S) (data : List (Nat → S)) (st : NState P) :
    ∀ i, (drainDue i (stAt step zero data st i)).onFlag = false →
      stAt step zero data st (i + 1) =
        drainDue i (stAt step zero data st i) ∧
      (passStep step zero (data.map (fun b => b i)) i
        (stAt step zero data st i)).2 = zero := by
  intro i hoff
  simp only [stAt, passStep]
  rw [if_neg (by rw [hoff]; exact Bool.false_ne_true)]
  exact ⟨rfl, rfl⟩

/-- Witness for `c10_off_sample_frame`: a gated-off sine-like node (a phase
counter incremented by each processor call) keeps its phase counter across
the sample. -/
theorem c10_witness :
    stAt (fun (p : Nat) (_ : List Int) => (p + 1, (1 : Int))) 0 []
        { fstate := 42, onFlag := false, parents := [], events := [] } 1 =
      drainDue 0 (stAt (fun (p : Nat) (_ : List Int) => (p + 1, (1 : Int))) 0 []
        { fstate := 42, onFlag := false, parents := [], events := [] } 0) :=
  (c10_off_sample_frame (fun (p : Nat) (_ : List Int) => (p + 1, (1 : Int)))
    0 [] { fstate := 42, onFlag := false, parents := [], events := [] } 0
    rfl).1

/-! ## `Audiograph::register_event` dispatch (claim C5) -/

/-- Claim C5: `register_event(name, event)` returns `true` exactly when the
registry contains `name` and the named node's concrete processor type
matches the event's expected type (the downcast succeeds); whenever it
returns `false`, the registry — in particular every node's event queue —
is left unchanged. -/
theorem c5_register_event_downcast {P : Type} (r : TReg P) (name : String)
    (expTag : Nat) (e : Ev P) :
    ((registerEventG r name expTag e).2 = true ↔
      ∃ n, tregFind name r = some n ∧ n.tag = expTag) ∧
    ((registerEventG r name expTag e).2 = false →
      (registerEventG r name expTag e).1 = r) := by
  cases hf : tregFind name r with
  | none =>
    constructor
    · simp [registerEventG, hf]
    · intro _
      simp [registerEventG, hf]
  | some n =>
    by_cases ht : n.tag = expTag
    · constructor
      · simp [registerEventG, hf, ht]
      · intro h
        exfalso
        simp [registerEventG, hf, ht] at h
    · constructor
      · simp only [registerEventG, hf, ht, if_false]
        constructor
        · intro h
          exact absurd h (by simp)
        · rintro ⟨n', hn', ht'⟩
          cases hn'
          exact absurd ht' ht
      · intro _
        simp [registerEventG, hf, ht]

/-! ## `Audiograph::add_input_to` (claim C6) -/

theorem mem_subnodesList {u : GNode} {l : List GNode} :
    u ∈ subnodesList l ↔ ∃ c ∈ l, u ∈ c.subnodes := by
  induction l with
  | nil => simp [subnodesList]
  | cons c cs ih =>
    rw [subnodesList]
    simp only [List.mem_append, ih, List.mem_cons]
    constructor
    · rintro (h | ⟨c', hc', hu⟩)
      · exact ⟨c, Or.inl rfl, h⟩
      · exact ⟨c', Or.inr hc', hu⟩
    · rintro ⟨c', (rfl | hc'), hu⟩
      · exact Or.inl hu
      · exact Or.inr ⟨c', hc', hu⟩

theorem subnode_name_mem_reach :
    ∀ l : List GNode, ∀ u ∈ subnodesList l, u.name ∈ reachNamesList l := by
  refine gIndList
    (P := fun t => ∀ u ∈ t.subnodes, u.name ∈ t.reachNames)
    (Q := fun l => ∀ u ∈ subnodesList l, u.name ∈ reachNamesList l)
    ?_ ?_ ?_
  · intro n l ih u hu
    rw [GNode.subnodes, List.mem_cons] at hu
    rw [GNode.reachNames, List.mem_cons]
    rcases hu with rfl | hu
    · exact Or.inl rfl
    · exact Or.inr (ih u hu)
  · intro u hu
    simp [subnodesList] at hu
  · intro c cs ihc ihcs u hu
    rw [subnodesList, List.mem_append] at hu
    rw [reachNamesList, List.mem_append]
    rcases hu with hu | hu
    · exact Or.inl (ihc u hu)
    · exact Or.inr (ihcs u hu)

theorem subnodeN_name_mem_reach (t : GNode) :
    ∀ u ∈ t.subnodes, u.name ∈ t.reachNames := by
  cases t with
  | mk n l =>
    intro u hu
    rw [GNode.subnodes, List.mem_cons] at hu
    rw [GNode.reachNames, List.mem_cons]
    rcases hu with rfl | hu
    · exact Or.inl rfl
    · exact Or.inr (subnode_name_mem_reach l u hu)

theorem mem_of_mem_insertInput {x y : GNode} {l : List GNode}
    (h : y ∈ insertInput x l) : y = x ∨ y ∈ l := by
  induction l with
  | nil => simpa [insertInput] using h
  | cons c cs ih =>
    rw [insertInput] at h
    by_cases hc : c.name = x.name
    · rw [if_pos hc] at h
      rcases List.mem_cons.mp h with rfl | h
      · exact Or.inl rfl
      · exact Or.inr (List.mem_cons_of_mem c h)
    · rw [if_neg hc] at h
      rcases List.mem_cons.mp h with rfl | h
      · exact Or.inr (List.mem_cons_self _ _)
      · rcases ih h with h | h
        · exact Or.inl h
        · exact Or.inr (List.mem_cons_of_mem c h)

theorem self_mem_insertInput (x : GNode) (l : List GNode) :
    x ∈ insertInput x l := by
  induction l with
  | nil => simp [insertInput]
  | cons c cs ih =>
    rw [insertInput]
    by_cases hc : c.name = x.name
    · rw [if_pos hc]; exact List.mem_cons_self _ _
    · rw [if_neg hc]; exact List.mem_cons_of_mem c ih

theorem regFind_regInsert_self (k : String) (v : GNode) (r : Reg) :
    regFind k (regInsert k v r) = some v := by
  induction r with
  | nil => simp [regInsert, regFind]
  | cons e es ih =>
    rw [regInsert]
    by_cases he : e.1 = k
    · rw [if_pos he, regFind, if_pos rfl]
    · rw [if_neg he, regFind, if_neg he, ih]

theorem regFind_regInsert_other {k k' : String} (hk : k' ≠ k) (v : GNode)
    (r : Reg) : regFind k' (regInsert k v r) = regFind k' r := by
  have hkk : ¬ k = k' := fun h => hk h.symm
  induction r with
  | nil =>
    simp [regInsert, regFind, hkk]
  | cons e es ih =>
    rw [regInsert]
    by_cases he : e.1 = k
    · rw [if_pos he, regFind, if_neg hkk, regFind,
        if_neg (show ¬ e.1 = k' from by rw [he]; exact hkk)]
    · rw [if_neg he, regFind, regFind]
      by_cases he' : e.1 = k'
      · rw [if_pos he', if_pos he']
      · rw [if_neg he', if_neg he', ih]

/-- Every node named `target` in the tree updated by `add_input_to` holds
the new input among its `parents` (provided `target` does not occur inside
the added node itself). -/
theorem addInputTree_inserts {target : String} {input : GNode}
    (hfresh : target ∉ input.reachNames) :
    ∀ l : List GNode, ∀ u ∈ subnodesList (addInputTreeList target input l),
      u.name = target → input ∈ u.inputs := by
  refine gIndList
    (P := fun t => ∀ u ∈ (GNode.addInputTree target input t).subnodes,
      u.name = target → input ∈ u.inputs)
    (Q := fun l => ∀ u ∈ subnodesList (addInputTreeList target input l),
      u.name = target → input ∈ u.inputs)
    ?_ ?_ ?_
  · intro n l ih u hu hname
    rw [GNode.addInputTree] at hu
    by_cases hn : n = target
    · rw [if_pos hn, GNode.subnodes, List.mem_cons] at hu
      rcases hu with rfl | hu
      · rw [GNode.inputs_mk]
        exact self_mem_insertInput input _
      · rw [mem_subnodesList] at hu
        obtain ⟨c, hc, hu'⟩ := hu
        rcases mem_of_mem_insertInput hc with rfl | hc
        · exact absurd (hname ▸ subnodeN_name_mem_reach c u hu') hfresh
        · exact ih u (mem_subnodesList.mpr ⟨c, hc, hu'⟩) hname
    · rw [if_neg hn, GNode.subnodes, List.mem_cons] at hu
      rcases hu with rfl | hu
      · exact absurd hname hn
      · exact ih u hu hname
  · intro u hu
    simp [addInputTreeList, subnodesList] at hu
  · intro c cs ihc ihcs u hu hname
    rw [addInputTreeList, subnodesList, List.mem_append] at hu
    rcases hu with hu | hu
    · exact ihc u hu hname
    · exact ihcs u hu hname

/-- Claim C6: `add_input_to(parent_name, node)` fails and changes nothing
when `parent_name` is not a registry key; when it is, it succeeds, the
node enters the registry under its own name (replacing any same-named
entry, the other entries untouched) and enters the `parents` map of the
node registered under `parent_name`. -/
theorem c6_add_input_to (g : AG) (pname : String) (input : GNode)
    (hfresh : pname ∉ input.reachNames) :
    (regFind pname g.reg = none → g.addInputTo pname input = (g, false)) ∧
    (∀ v, regFind pname g.reg = some v →
      (g.addInputTo pname input).2 = true ∧
      regFind input.name (g.addInputTo pname input).1.reg = some input ∧
      (∀ k, k ≠ input.name →
        regFind k (g.addInputTo pname input).1.reg = regFind k g.reg) ∧
      ∀ u ∈ (g.addInputTo pname input).1.root.subnodes, u.name = pname →
        input ∈ u.inputs) := by
  constructor
  · intro hnone
    rw [AG.addInputTo, hnone]
  · intro v hsome
    rw [AG.addInputTo, hsome]
    refine ⟨rfl, regFind_regInsert_self _ _ _, ?_, ?_⟩
    · intro k hk
      exact regFind_regInsert_other hk _ _
    · intro u hu hname
      cases hroot : g.root with
      | mk n l =>
        rw [hroot] at hu
        rw [GNode.addInputTree] at hu
        by_cases hn : n = pname
        · rw [if_pos hn, GNode.subnodes, List.mem_cons] at hu
          rcases hu with rfl | hu
          · rw [GNode.inputs_mk]
            exact self_mem_insertInput input _
          · rw [mem_subnodesList] at hu
            obtain ⟨c, hc, hu'⟩ := hu
            rcases mem_of_mem_insertInput hc with rfl | hc
            · exact absurd (hname ▸ subnodeN_name_mem_reach c u hu') hfresh
            · exact addInputTree_inserts hfresh l u
                (mem_subnodesList.mpr ⟨c, hc, hu'⟩) hname
        · rw [if_neg hn, GNode.subnodes, List.mem_cons] at hu
          rcases hu with rfl | hu
          · exact absurd hname hn
          · exact addInputTree_inserts hfresh l u hu hname

/-- Witness for `c6_add_input_to`: adding `"sw2"` under the registered
mixer of a concrete graph succeeds and links it. -/
theorem c6_witness :
    ((AG.new (watcherOn (GNode.mk "mixer" [GNode.mk "sw1" []]))).addInputTo
      "mixer" (GNode.mk "sw2" [])).2 = true :=
  ((c6_add_input_to (AG.new (watcherOn (GNode.mk "mixer" [GNode.mk "sw1" []])))
    "mixer" (GNode.mk "sw2" []) (by decide)).2
    (GNode.mk "mixer" [GNode.mk "sw1" []]) rfl).1

/-! ## The per-sample iterator path (claim C9) -/

/-- Claim C9: `Iterator::next` on a node (the path driven by the graph
iterator, which simply forwards to the Sentinel's `next`) pulls one value
from each input's iterator (`nextList` returns their value vector `vs`),
invokes the processor exactly once on those values — the new state is
`step fstate vs` applied once, the emitted sample its output — and returns
`Some` unconditionally.  It never touches any event queue (`allEvents` is
preserved everywhere), and it ignores the `on` gate: flipping every gate
in the tree leaves the emitted value unchanged.  Since the value is always
`Some`, a tree whose nodes are all processor-backed yields an infinite
sequence. -/
theorem c9_iterator_next_total {S P : Type} :
    ∀ n : INode S P, ∃ l' vs,
      nextList n.inputs = (l', some vs) ∧
      n.next = (INode.mk n.onFlag (n.step n.fstate vs).1 n.step n.events l',
        some (n.step n.fstate vs).2) ∧
      allEventsList l' = allEventsList n.inputs ∧
      ∀ b, (n.setAllOn b).next =
        ((INode.mk n.onFlag (n.step n.fstate vs).1 n.step n.events l').setAllOn b,
          some (n.step n.fstate vs).2) := by
  refine iInd
    (A := fun n => ∃ l' vs,
      nextList n.inputs = (l', some vs) ∧
      n.next = (INode.mk n.onFlag (n.step n.fstate vs).1 n.step n.events l',
        some (n.step n.fstate vs).2) ∧
      allEventsList l' = allEventsList n.inputs ∧
      ∀ b, (n.setAllOn b).next =
        ((INode.mk n.onFlag (n.step n.fstate vs).1 n.step n.events l').setAllOn b,
          some (n.step n.fstate vs).2))
    (B := fun l => ∃ l' vs,
      nextList l = (l', some vs) ∧
      allEventsList l' = allEventsList l ∧
      ∀ b, nextList (setAllOnList b l) = (setAllOnList b l', some vs))
    ?_ ?_ ?_
  · intro bb f s e l hB
    obtain ⟨l', vs, h1, h2, h3⟩ := hB
    refine ⟨l', vs, ?_, ?_, h2, ?_⟩
    · simpa [INode.inputs] using h1
    · simp [INode.next, h1, INode.onFlag, INode.fstate, INode.step,
        INode.events]
    · intro b
      have hset : (INode.mk bb f s e l).setAllOn b =
          INode.mk b f s e (setAllOnList b l) := by
        simp [INode.setAllOn]
      rw [hset]
      simp [INode.next, h3 b, INode.setAllOn, INode.onFlag, INode.fstate,
        INode.step, INode.events]
  · exact ⟨[], [], by rw [nextList], rfl,
      fun b => by rw [setAllOnList, nextList]⟩
  · intro i is hA hB
    obtain ⟨li, vsi, ha1, ha2, ha3, ha4⟩ := hA
    obtain ⟨ls, vss, hb1, hb2, hb3⟩ := hB
    refine ⟨INode.mk i.onFlag (i.step i.fstate vsi).1 i.step i.events li :: ls,
      (i.step i.fstate vsi).2 :: vss, ?_, ?_, ?_⟩
    · rw [nextList, ha2, hb1]
    · rw [allEventsList, allEventsList, hb2]
      cases i with
      | mk bb f s e l =>
        simp only [INode.allEvents, INode.onFlag, INode.step, INode.fstate,
          INode.events]
        rw [ha3]
        simp [INode.inputs]
    · intro b
      rw [setAllOnList, nextList, ha4 b, hb3 b]
      simp [INode.setAllOn, setAllOnList]

end AudioGraph
